import Mathlib

set_option autoImplicit false

/-
Shallow embedding of `src/pytable.py` (class Table and its methods).

A Python table is a list of dicts with the same keys.  We model

  * cell values as `Value` (ints, bools, strings, None -- the scalar types the
    claims exercise; Python bools are a subclass of int and compare equal to
    the corresponding integers, which `pyEq` reproduces);
  * a row dict as an insertion-ordered association list `Record` with unique
    keys (Python dict semantics: assignment to an existing key keeps its
    position, a new key is appended at the end);
  * a table as `Table` (column-name list plus row list);
  * a raised Python exception as `PyErr`.  In-place mutators return
    `Table × Option PyErr` so that the state left behind by a *failed* call is
    visible (Python mutates the object and then raises); operations that build
    and return a fresh table (`join`, `select_columns`) return
    `Except PyErr Table`.

The source file references a method `insert` on Table (lines 289 and 379) that
is never defined anywhere in the file, so executing those lines raises
AttributeError; the embedding models those call sites accordingly.
-/

namespace PyTable

/-- Scalar cell values.  `Value.none` models Python's None, used by the source
as the missing-value marker. -/
inductive Value where
  | int (n : Int)
  | bool (b : Bool)
  | str (s : String)
  | none
  deriving DecidableEq, Repr

/-- Numeric view of a value: Python bool is a subclass of int, so True and
False behave as the integers 1 and 0 in comparisons. -/
def Value.toIntQ : Value → Option Int
  | .int n => some n
  | .bool b => some (if b then 1 else 0)
  | _ => Option.none

/-- Python `==` on the modelled scalar types: exact equality within a type,
bool/int compare numerically, numbers never equal strings, None equals only
None. -/
def pyEq (a b : Value) : Bool :=
  match a, b with
  | .none, .none => true
  | .str s, .str t => s == t
  | .int m, .int n => m == n
  | .int m, .bool b => m == (if b then (1 : Int) else 0)
  | .bool b, .int n => (if b then (1 : Int) else 0) == n
  | .bool a, .bool b => a == b
  | _, _ => false

/-- Canonical representative of a value under Python equality: bools collapse
to their integer value.  Used only to prove that `pyEq` is an equivalence. -/
def Value.keyRep : Value → Value
  | .bool b => .int (if b then 1 else 0)
  | v => v

theorem pyEq_eq_keyRep (a b : Value) : pyEq a b = (a.keyRep == b.keyRep) := by
  cases a <;> cases b <;>
    simp [pyEq, Value.keyRep] <;>
    first
      | rfl
      | (rename_i x y; cases x <;> cases y <;> decide)
      | (rename_i x; cases x <;> decide)

theorem pyEq_refl (a : Value) : pyEq a a = true := by
  simp [pyEq_eq_keyRep]

theorem pyEq_symm (a b : Value) : pyEq a b = pyEq b a := by
  simp only [pyEq_eq_keyRep]
  by_cases h : a.keyRep = b.keyRep
  · simp [h]
  · simp [beq_eq_false_iff_ne, h, Ne.symm h]

theorem pyEq_trans {a b c : Value} (h1 : pyEq a b = true) (h2 : pyEq b c = true) :
    pyEq a c = true := by
  simp only [pyEq_eq_keyRep, beq_iff_eq] at *
  exact h1.trans h2

/-- Row dict: insertion-ordered association list of column name to value. -/
abbrev Record := List (String × Value)

/-- Python `k in d` for a row dict. -/
def hasKey (r : Record) (k : String) : Bool := r.any (fun p => p.1 == k)

/-- Python `d[k]`, as an Option (None result = KeyError would be raised). -/
def rowGet? (r : Record) (k : String) : Option Value :=
  (r.find? (fun p => p.1 == k)).map Prod.snd

/-- Total read used in specification statements; defaults to None. -/
def getV (r : Record) (k : String) : Value := (rowGet? r k).getD .none

/-- Python `d[k] = v`: an existing key keeps its position and receives the new
value; a new key is appended at the end. -/
def dictSet (r : Record) (k : String) (v : Value) : Record :=
  if hasKey r k then r.map (fun p => if p.1 == k then (k, v) else p)
  else r ++ [(k, v)]

/-- Python `dict(zip(ks, vs))`: pairs are processed left to right (truncating
at the shorter list); a repeated key keeps its first position and takes the
later value. -/
def dictZip (ks : List String) (vs : List Value) : Record :=
  (List.zip ks vs).foldl (fun r p => dictSet r p.1 p.2) []

/-- Python `del d[k]` (the key is assumed present; callers check). -/
def delKey (r : Record) (k : String) : Record := r.filter (fun p => !(p.1 == k))

/-- Python `d.values()` in insertion order. -/
def dictValues (r : Record) : List Value := r.map Prod.snd

/-- Exceptions raised by the source code.  The source raises ValueError (wrong
arity, name not in list), KeyError (missing dict key), and AttributeError (the
undefined method `insert`). -/
inductive PyErr where
  | valueError (msg : String)
  | keyError
  | attributeError (missingMethod : String)
  deriving DecidableEq, Repr

/-- A table: a list of column names and a list of row dicts. -/
structure Table where
  columns : List String
  rows : List Record
  deriving DecidableEq, Repr

/-- Shapes accepted by `_addrow`: a positional sequence (list/tuple) or a
mapping.  A Python object argument behaves exactly like the mapping case
(`getattr(data, k, None)` over the columns), so it is covered by `mapping`. -/
inductive RowData where
  | seq (vals : List Value)
  | mapping (m : Record)

/-- Table._addrow: normalize `data` and append one row dict.  A sequence must
match the column count exactly (else ValueError, nothing appended); a mapping
is projected onto the columns with None for absent keys. -/
def Table._addrow (t : Table) (data : RowData) : Table × Option PyErr :=
  match data with
  | .mapping m =>
    (⟨t.columns, t.rows ++ [dictZip t.columns (t.columns.map (fun k => getV m k))]⟩, Option.none)
  | .seq vals =>
    if vals.length ≠ t.columns.length then
      (t, some (PyErr.valueError "Wrong number of data values"))
    else
      (⟨t.columns, t.rows ++ [dictZip t.columns vals]⟩, Option.none)

/-- Table.add_rows: insert one datum at a time; an error aborts the loop with
the rows inserted so far kept (the exception propagates). -/
def Table.add_rows (t : Table) : List RowData → Table × Option PyErr
  | [] => (t, Option.none)
  | d :: ds =>
    match t._addrow d with
    | (t', Option.none) => t'.add_rows ds
    | (t', some e) => (t', some e)

/-- Table.rename_column: `columns.index(oldname)` raises ValueError when
absent (table untouched); otherwise the first occurrence is renamed and every
row dict is rebuilt as `dict(zip(columns, row.values()))`. -/
def Table.rename_column (t : Table) (oldname newname : String) : Table × Option PyErr :=
  if oldname ∈ t.columns then
    let cols2 := t.columns.set (t.columns.indexOf oldname) newname
    (⟨cols2, t.rows.map (fun r => dictZip cols2 (dictValues r))⟩, Option.none)
  else
    (t, some (PyErr.valueError "not in list"))

/-- Helper for remove_column: `for row in rows: del row[colname]` -- deletes
front to back, raising KeyError at the first row lacking the key and leaving
that row and the later ones untouched. -/
def delRows (colname : String) : List Record → List Record × Option PyErr
  | [] => ([], Option.none)
  | r :: rs =>
    if hasKey r colname then
      let p := delRows colname rs
      (delKey r colname :: p.1, p.2)
    else
      (r :: rs, some PyErr.keyError)

/-- Table.remove_column: the column list is filtered first (a no-op when the
name is absent), then the key is deleted from each row in turn; with an absent
name and at least one row this raises KeyError at the first row.  Note that on
an empty table an absent name raises nothing. -/
def Table.remove_column (t : Table) (colname : String) : Table × Option PyErr :=
  let cols2 := t.columns.filter (fun c => !(c == colname))
  let p := delRows colname t.rows
  (⟨cols2, p.1⟩, p.2)

/-- Argument to set_column: Python treats lists/tuples as per-row sequences
and everything else (including None) as a scalar to broadcast. -/
inductive ColValue where
  | scalar (v : Value)
  | seq (vs : List Value)

/-- Table.set_column: a new name is appended to the column list BEFORE the
sequence-length check, so a failing call still leaves the new column name in
the schema; rows are only written after the check passes. -/
def Table.set_column (t : Table) (colname : String) (colvalue : ColValue) : Table × Option PyErr :=
  let cols2 := if colname ∈ t.columns then t.columns else t.columns ++ [colname]
  match colvalue with
  | .seq vs =>
    if vs.length ≠ t.rows.length then
      (⟨cols2, t.rows⟩, some (PyErr.valueError "Wrong number of values "))
    else
      (⟨cols2, (t.rows.zip vs).map (fun p => dictSet p.1 colname p.2)⟩, Option.none)
  | .scalar v =>
    (⟨cols2, t.rows.map (fun r => dictSet r colname v)⟩, Option.none)

/-- Table.calculate_column: append the name if new, then `row[colname] = f(row)`
for every row (f sees the row before the assignment). -/
def Table.calculate_column (t : Table) (colname : String) (f : Record → Value) : Table :=
  let cols2 := if colname ∈ t.columns then t.columns else t.columns ++ [colname]
  ⟨cols2, t.rows.map (fun r => dictSet r colname (f r))⟩

/-- Helper for map_column: `r[colname] = f(r[colname])` row by row; a row
lacking the key raises KeyError, leaving it and the later rows untouched. -/
def mapRows (colname : String) (f : Value → Value) : List Record → List Record × Option PyErr
  | [] => ([], Option.none)
  | r :: rs =>
    match rowGet? r colname with
    | Option.none => (r :: rs, some PyErr.keyError)
    | some v =>
      let p := mapRows colname f rs
      (dictSet r colname (f v) :: p.1, p.2)

/-- Table.map_column: ValueError when the name is not a column (table
untouched); otherwise each row's value is replaced by f of the old value. -/
def Table.map_column (t : Table) (colname : String) (f : Value → Value) : Table × Option PyErr :=
  if colname ∈ t.columns then
    let p := mapRows colname f t.rows
    (⟨t.columns, p.1⟩, p.2)
  else
    (t, some (PyErr.valueError "is not a column in the table"))

/-- Decorate each row with its sort key; CPython computes all keys before any
reordering, so a missing column raises KeyError with the rows unchanged. -/
def sortKeys (colname : String) (kc : Value → Int) : List Record → Option (List (Record × Int))
  | [] => some []
  | r :: rs =>
    match rowGet? r colname with
    | Option.none => Option.none
    | some v => (sortKeys colname kc rs).map (fun l => (r, kc v) :: l)

/-- Stable ascending insert: the new element goes after existing equal keys. -/
def insertAsc (p : Record × Int) : List (Record × Int) → List (Record × Int)
  | [] => [p]
  | q :: qs => if q.2 ≤ p.2 then q :: insertAsc p qs else p :: q :: qs

/-- Stable descending insert (Python's `reverse=True` keeps equal keys in
their original relative order). -/
def insertDesc (p : Record × Int) : List (Record × Int) → List (Record × Int)
  | [] => [p]
  | q :: qs => if p.2 ≤ q.2 then q :: insertDesc p qs else p :: q :: qs

/-- Table.sort: stable in-place sort of the rows by `keyconvert(row[colname])`.
The key function is modelled as integer-valued (a total order, as with the
int/lower-case conversions the docstring suggests); Python's raw-value
comparison between incomparable types is not exercised by any claim. -/
def Table.sort (t : Table) (colname : String) (reverse : Bool) (kc : Value → Int) :
    Table × Option PyErr :=
  match sortKeys colname kc t.rows with
  | Option.none => (t, some PyErr.keyError)
  | some dec =>
    let ins := if reverse then insertDesc else insertAsc
    (⟨t.columns, (dec.foldl (fun acc p => ins p acc) []).map Prod.fst⟩, Option.none)

/-- The `on` argument of join: a single column name stands for the pair with
itself (`if type(on) is str: on = (on, on)`). -/
inductive JoinOn where
  | single (name : String)
  | pair (l r : String)

def JoinOn.lid : JoinOn → String
  | .single s => s
  | .pair l _ => l

def JoinOn.rid : JoinOn → String
  | .single s => s
  | .pair _ r => r

/-- Python `row[k]` in an expression position: KeyError when absent. -/
def getE (r : Record) (k : String) : Except PyErr Value :=
  match rowGet? r k with
  | some v => .ok v
  | Option.none => .error PyErr.keyError

/-- The right-hand lookup of join: a defaultdict(list) keyed by row[rid].
Python dicts preserve first-seen key order, and key identity is Python
equality, so the model is an insertion-ordered association list whose keys
are compared with `pyEq`. -/
abbrev Lookup := List (Value × List Record)

/-- One step `lookup[v].append(r)`: append to the first entry whose key is
Python-equal to v, else create a new entry at the end (first-seen order). -/
def lookupAdd : Lookup → Value → Record → Lookup
  | [], v, r => [(v, [r])]
  | e :: es, v, r =>
    if pyEq e.1 v then (e.1, e.2 ++ [r]) :: es else e :: lookupAdd es v r

/-- Python `leftid in lookup` / `lookup[leftid]` combined: the row list of the
first entry whose key is Python-equal to the probe. -/
def lookupFind (lk : Lookup) (v : Value) : Option (List Record) :=
  (lk.find? (fun e => pyEq e.1 v)).map Prod.snd

/-- Build the lookup from the right table's rows, left to right; a right row
lacking the rid key raises KeyError. -/
def buildLookupFrom (rid : String) (acc : Lookup) : List Record → Except PyErr Lookup
  | [] => .ok acc
  | r :: rs =>
    match rowGet? r rid with
    | Option.none => .error PyErr.keyError
    | some v => buildLookupFrom rid (lookupAdd acc v r) rs

def buildLookup (rid : String) (rows : List Record) : Except PyErr Lookup :=
  buildLookupFrom rid [] rows

/-- The joinrow lambda of the source: the merged key (`a[lid]` unless that is
None, in which case `b[rid]`), then a's values at the non-lid left columns,
then b's values at the non-rid right columns.  Each dict access can raise
KeyError; accesses happen left to right. -/
def joinrowE (lcols rcols : List String) (lid rid : String) (a b : Record) :
    Except PyErr (List Value) :=
  match getE a lid with
  | .error e => .error e
  | .ok av =>
    match (if av ≠ Value.none then .ok av else getE b rid) with
    | .error e => .error e
    | .ok idv =>
      match (lcols.filter (fun k => k != lid)).mapM (fun k => getE a k) with
      | .error e => .error e
      | .ok lvals =>
        match (rcols.filter (fun k => k != rid)).mapM (fun k => getE b k) with
        | .error e => .error e
        | .ok rvals => .ok (idv :: (lvals ++ rvals))

/-- The source computes the output column list by applying joinrow to the
identity dicts `dict(zip(cols, cols))`; that evaluates to
`[lid] + [left columns except lid] + [right columns except rid]` and raises
KeyError exactly when lid is not a left column (a column name, being a
string, is never None, so the rid side of the merged key is not read). -/
def joinCols (lcols rcols : List String) (lid rid : String) : Except PyErr (List String) :=
  if lid ∈ lcols then
    .ok (lid :: (lcols.filter (fun k => k != lid) ++ rcols.filter (fun k => k != rid)))
  else
    .error PyErr.keyError

/-- Python `v in list` over the right_matched id list (`==` is pyEq). -/
def pyMem (v : Value) : List Value → Bool
  | [] => false
  | w :: ws => pyEq w v || pyMem v ws

/-- The left scan of join.  For each left row in order: if its key is in the
lookup, emit one joined value-list per matching right row (in lookup-entry
order) and, when the mode keeps right-unmatched rows, record the key in
right_matched; otherwise, when the mode keeps left-unmatched rows, defer the
row.  Returns (matched value-lists, left_unmatched, right_matched). -/
def processLeft (lookup : Lookup) (lcols rcols : List String) (lid rid : String)
    (takeLeft takeRight : Bool) :
    List Record → Except PyErr (List (List Value) × List Record × List Value)
  | [] => .ok ([], [], [])
  | row :: rest =>
    match getE row lid with
    | .error e => .error e
    | .ok leftid =>
      match lookupFind lookup leftid with
      | some rs =>
        match rs.mapM (fun rr => joinrowE lcols rcols lid rid row rr) with
        | .error e => .error e
        | .ok vals =>
          match processLeft lookup lcols rcols lid rid takeLeft takeRight rest with
          | .error e => .error e
          | .ok (m, lu, rm) =>
            .ok (vals ++ m, lu, (if takeRight then [leftid] else []) ++ rm)
      | Option.none =>
        match processLeft lookup lcols rcols lid rid takeLeft takeRight rest with
        | .error e => .error e
        | .ok (m, lu, rm) =>
          .ok (m, (if takeLeft then [row] else []) ++ lu, rm)

/-- The right-unmatched pass of join (modes right/outer): for each lookup
entry in first-seen key order whose key is not in right_matched, emit one
value-list per stored right row, joined against the all-None left dummy. -/
def rightPass (lcols rcols : List String) (lid rid : String) (dummyL : Record)
    (rightMatched : List Value) : Lookup → Except PyErr (List (List Value))
  | [] => .ok []
  | e :: es =>
    match (if pyMem e.1 rightMatched then .ok []
           else e.2.mapM (fun rr => joinrowE lcols rcols lid rid dummyL rr)) with
    | .error err => .error err
    | .ok here =>
      match rightPass lcols rcols lid rid dummyL rightMatched es with
      | .error err => .error err
      | .ok rest => .ok (here ++ rest)

/-- Append value-lists to a table through `_addrow` (join emits matched and
right-unmatched rows via `add_rows` with a single list argument). -/
def Table.addSeqRows (t : Table) : List (List Value) → Except PyErr Table
  | [] => .ok t
  | vs :: rest =>
    match t._addrow (RowData.seq vs) with
    | (t', Option.none) => t'.addSeqRows rest
    | (_, some e) => .error e

/-- Table.join.  The three `mode in [...]` membership tests of the source are
pure and are hoisted into the two flags; everything else follows the source's
order of effects: build the lookup, compute the output columns (KeyError
surfaces here when lid is missing), scan the left rows, then -- if the mode
keeps left-unmatched rows and there is at least one -- the source reaches
`joined.insert(...)` (line 379), a method Table never defines, so the call
raises AttributeError; otherwise the right-unmatched pass runs and the
result table is returned. -/
def Table.join (self rightT : Table) (onArg : JoinOn) (mode : String) : Except PyErr Table :=
  let lid := onArg.lid
  let rid := onArg.rid
  let takeRight := mode == "right" || mode == "outer"
  let takeLeft := mode == "left" || mode == "outer"
  match buildLookup rid rightT.rows with
  | .error e => .error e
  | .ok lookup =>
    let dummyL := dictZip self.columns (self.columns.map (fun _ => Value.none))
    match joinCols self.columns rightT.columns lid rid with
    | .error e => .error e
    | .ok allcolumns =>
      match processLeft lookup self.columns rightT.columns lid rid takeLeft takeRight self.rows with
      | .error e => .error e
      | .ok (matched, leftUn, rightMatched) =>
        match Table.addSeqRows ⟨allcolumns, []⟩ matched with
        | .error e => .error e
        | .ok joined1 =>
          if takeLeft && !leftUn.isEmpty then .error (PyErr.attributeError "insert")
          else
            match (if takeRight then
                     rightPass self.columns rightT.columns lid rid dummyL rightMatched lookup
                   else .ok []) with
            | .error e => .error e
            | .ok rightVals => joined1.addSeqRows rightVals

/-- Argument to select_columns: the star form or an explicit name list (a
comma/space separated string is parsed to such a list by the source). -/
inductive SelectArg where
  | star
  | names (cols : List String)

/-- Table.select_columns: builds the target table and then calls `st.insert`
for every row -- but Table defines no method `insert`, so the first row raises
AttributeError.  Only on an empty table does the call return the new table. -/
def Table.select_columns (t : Table) (arg : SelectArg) : Except PyErr Table :=
  let cols := match arg with | .star => t.columns | .names cs => cs
  match t.rows with
  | [] => .ok ⟨cols, []⟩
  | _ :: _ => .error (PyErr.attributeError "insert")

/-
Reference-level model, for claims about object identity and aliasing.

Column-name lists and row dicts live on two heaps; a table holds a reference
into the column heap and a list of references into the record heap.  This
makes Python's reference semantics explicit: `Table.__init__` stores the list
object it is given without copying, so `filter_rows` (which passes
`self.columns`) yields a view whose column list IS the source's column list,
and whose row references are the source's row objects for the matching rows.
-/

/-- The two heaps: column-name lists and row dicts. -/
structure PyState where
  cols : List (List String)
  recs : List Record
  deriving DecidableEq, Repr

/-- A table at the reference level: a reference to its column list and
references to its row dicts. -/
structure RTable where
  colsref : Nat
  rowrefs : List Nat
  deriving DecidableEq, Repr

/-- Dereference a table's column list. -/
def PyState.colsAt (s : PyState) (t : RTable) : List String := s.cols.getD t.colsref []

/-- Dereference one record. -/
def PyState.recAt (s : PyState) (i : Nat) : Record := s.recs.getD i []

/-- The row dicts of a table, in order. -/
def derefRows (s : PyState) (t : RTable) : List Record := t.rowrefs.map s.recAt

/-- Table.filter_rows at the reference level: `Table(self.columns)` stores the
same list object (no copy is made for a list argument), so the view shares
colsref; `ft.rows = [*filter(pred, self.rows)]` is a fresh list holding the
same record references, keeping exactly the matching rows in order. -/
def filterRowsR (s : PyState) (t : RTable) (pred : Record → Bool) : RTable :=
  ⟨t.colsref, t.rowrefs.filter (fun i => pred (s.recAt i))⟩

/-- Python `row[k] = v` on the record heap. -/
def setRecValueR (s : PyState) (i : Nat) (k : String) (v : Value) : PyState :=
  { s with recs := s.recs.set i (dictSet (s.recAt i) k v) }

/-- Table.set_column at the reference level: a new name is appended to the
(possibly shared) column list in place, then the rows referenced by THIS
table are written. -/
def setColumnR (s : PyState) (t : RTable) (colname : String) (colvalue : ColValue) :
    PyState × Option PyErr :=
  let cols := s.colsAt t
  let s1 := if colname ∈ cols then s
            else { s with cols := s.cols.set t.colsref (cols ++ [colname]) }
  match colvalue with
  | .seq vs =>
    if vs.length ≠ t.rowrefs.length then
      (s1, some (PyErr.valueError "Wrong number of values "))
    else
      ((t.rowrefs.zip vs).foldl (fun st p => setRecValueR st p.1 colname p.2) s1, Option.none)
  | .scalar v =>
    (t.rowrefs.foldl (fun st i => setRecValueR st i colname v) s1, Option.none)

/-- Table.rename_column at the reference level: the (possibly shared) column
list is mutated in place at the first occurrence of oldname; then every slot
of this table's own rows list is rebound to a fresh dict
`dict(zip(columns, row.values()))` -- fresh records are allocated at the end
of the heap, and the table's row references are replaced; the original record
objects are not touched. -/
def renameColumnR (s : PyState) (t : RTable) (oldname newname : String) :
    PyState × RTable × Option PyErr :=
  let cols := s.colsAt t
  if oldname ∈ cols then
    let cols2 := cols.set (cols.indexOf oldname) newname
    let s1 := { s with cols := s.cols.set t.colsref cols2 }
    let fresh := (derefRows s1 t).map (fun r => dictZip cols2 (dictValues r))
    let base := s1.recs.length
    ({ s1 with recs := s1.recs ++ fresh },
     ⟨t.colsref, (List.range fresh.length).map (fun j => base + j)⟩,
     Option.none)
  else
    (s, t, some (PyErr.valueError "not in list"))

/-- Table.calculate_column at the reference level: a new name is appended to
the (possibly shared) column list in place, then `row[colname] = f(row)` is
applied to each record this table references (mutating the shared record
objects). -/
def calculateColumnR (s : PyState) (t : RTable) (colname : String) (f : Record → Value) :
    PyState :=
  let cols := s.colsAt t
  let s1 := if colname ∈ cols then s
            else { s with cols := s.cols.set t.colsref (cols ++ [colname]) }
  t.rowrefs.foldl (fun st i => setRecValueR st i colname (f (st.recAt i))) s1

/-
Concrete tables used by the spec's join examples (section 8 of the spec and
the __main__ block of the source): L has schema id,b,c with rows
(1,5,6),(2,2,3),(3,4,8); R has schema id2,x,y with rows
(1,50,60),(2,20,30),(2,21,31),(33,40,80),(33,41,81).
-/

def exLeft : Table :=
  ⟨["id", "b", "c"],
   [[("id", Value.int 1), ("b", Value.int 5), ("c", Value.int 6)],
    [("id", Value.int 2), ("b", Value.int 2), ("c", Value.int 3)],
    [("id", Value.int 3), ("b", Value.int 4), ("c", Value.int 8)]]⟩

def exRight : Table :=
  ⟨["id2", "x", "y"],
   [[("id2", Value.int 1), ("x", Value.int 50), ("y", Value.int 60)],
    [("id2", Value.int 2), ("x", Value.int 20), ("y", Value.int 30)],
    [("id2", Value.int 2), ("x", Value.int 21), ("y", Value.int 31)],
    [("id2", Value.int 33), ("x", Value.int 40), ("y", Value.int 80)],
    [("id2", Value.int 33), ("x", Value.int 41), ("y", Value.int 81)]]⟩

/-
Specification-side definitions for the join claims, written from the spec's
words: output column order, matched combinations per left row in left
iteration order, and the right-unmatched rows in the lookup's first-seen key
order with None markers on the left side.
-/

/-- Pure lookup construction (the error-free value of `buildLookup`). -/
def lookupOfP (rid : String) (rows : List Record) : Lookup :=
  rows.foldl (fun lk r => lookupAdd lk (getV r rid) r) []

/-- Output columns dictated by the spec: merged key column, then the left
columns except the join key, then the right columns except the join key. -/
def specJoinCols (lcols rcols : List String) (lid rid : String) : List String :=
  lid :: (lcols.filter (fun k => k != lid) ++ rcols.filter (fun k => k != rid))

/-- Value list of one joined row: the merged key (left key value, falling back
to the right key value when the left one is None), the remaining left values,
the remaining right values. -/
def specRowVals (lcols rcols : List String) (lid rid : String) (a b : Record) : List Value :=
  (if getV a lid ≠ Value.none then getV a lid else getV b rid) ::
    ((lcols.filter (fun k => k != lid)).map (getV a) ++
     (rcols.filter (fun k => k != rid)).map (getV b))

/-- Value list of one right-unmatched row: the right key value, None for every
left column except the key, then the remaining right values. -/
def specDummyVals (lcols rcols : List String) (lid rid : String) (b : Record) : List Value :=
  getV b rid ::
    ((lcols.filter (fun k => k != lid)).map (fun _ => Value.none) ++
     (rcols.filter (fun k => k != rid)).map (getV b))

/-- All matched combinations, in left-iteration order, the right-side
duplicate matches immediately following each other per matching left row. -/
def specMatchedRows (L R : Table) (lid rid : String) : List Record :=
  L.rows.flatMap (fun l =>
    (R.rows.filter (fun r => pyEq (getV r rid) (getV l lid))).map
      (fun r => dictZip (specJoinCols L.columns R.columns lid rid)
                        (specRowVals L.columns R.columns lid rid l r)))

/-- One row per right record whose key matched no left record, grouped by key
in the lookup's first-seen key order. -/
def specRightUnmatchedRows (L R : Table) (lid rid : String) : List Record :=
  (lookupOfP rid R.rows).flatMap (fun e =>
    if L.rows.any (fun l => pyEq (getV l lid) e.1) then []
    else e.2.map (fun r => dictZip (specJoinCols L.columns R.columns lid rid)
                                   (specDummyVals L.columns R.columns lid rid r)))

/-
Record-level lemmas.
-/

theorem hasKey_iff {r : Record} {k : String} :
    hasKey r k = true ↔ ∃ p ∈ r, p.1 = k := by
  simp [hasKey, List.any_eq_true]

theorem rowGet?_isSome (r : Record) (k : String) :
    (rowGet? r k).isSome = hasKey r k := by
  induction r with
  | nil => rfl
  | cons p ps ih =>
    simp only [rowGet?, hasKey, List.find?_cons, List.any_cons]
    cases h : (p.1 == k) with
    | true => simp
    | false =>
      simp only [Bool.false_or]
      simpa [rowGet?, hasKey] using ih

theorem rowGet?_eq_some_getV {r : Record} {k : String} (h : hasKey r k = true) :
    rowGet? r k = some (getV r k) := by
  have hs : (rowGet? r k).isSome = true := by rw [rowGet?_isSome]; exact h
  rcases Option.isSome_iff_exists.mp hs with ⟨v, hv⟩
  simp [getV, hv]

theorem getE_of_hasKey {r : Record} {k : String} (h : hasKey r k = true) :
    getE r k = .ok (getV r k) := by
  simp [getE, rowGet?_eq_some_getV h]

theorem getE_of_not_hasKey {r : Record} {k : String} (h : hasKey r k = false) :
    getE r k = .error PyErr.keyError := by
  have hs : (rowGet? r k).isSome = false := by rw [rowGet?_isSome]; exact h
  simp only [getE]
  cases hv : rowGet? r k with
  | none => rfl
  | some v => rw [hv] at hs; simp at hs

theorem hasKey_dictSet_iff {r : Record} {k : String} {v : Value} {k' : String} :
    hasKey (dictSet r k v) k' = true ↔ (k' = k ∨ hasKey r k' = true) := by
  simp only [dictSet]
  by_cases h : hasKey r k = true
  · simp only [h, if_true, hasKey_iff, List.mem_map]
    constructor
    · rintro ⟨p, ⟨q, hq, rfl⟩, hfq⟩
      by_cases hqk : q.1 = k
      · simp only [hqk, beq_self_eq_true, if_true] at hfq
        exact Or.inl hfq.symm
      · have : (q.1 == k) = false := by simp [hqk]
        simp only [this, Bool.false_eq_true, if_false] at hfq
        exact Or.inr ⟨q, hq, hfq⟩
    · rintro (rfl | ⟨q, hq, hqk⟩)
      · rcases hasKey_iff.mp h with ⟨p, hp, hpk⟩
        exact ⟨(k', v), ⟨p, hp, by simp [hpk]⟩, rfl⟩
      · by_cases hqk2 : q.1 = k
        · exact ⟨(k, v), ⟨q, hq, by simp [hqk2]⟩, (hqk2 ▸ hqk : k = k')⟩
        · have : (q.1 == k) = false := by simp [hqk2]
          exact ⟨q, ⟨q, hq, by simp [this]⟩, hqk⟩
  · simp only [Bool.not_eq_true] at h
    simp only [h, Bool.false_eq_true, if_false, hasKey_iff, List.mem_append,
      List.mem_singleton]
    constructor
    · rintro ⟨p, hp | rfl, hpk⟩
      · exact Or.inr ⟨p, hp, hpk⟩
      · exact Or.inl hpk.symm
    · rintro (rfl | ⟨q, hq, hqk⟩)
      · exact ⟨(k', v), Or.inr rfl, rfl⟩
      · exact ⟨q, Or.inl hq, hqk⟩

theorem hasKey_foldl_dictSet (l : List (String × Value)) (acc : Record) (k : String) :
    hasKey (l.foldl (fun r p => dictSet r p.1 p.2) acc) k = true ↔
      (k ∈ l.map Prod.fst ∨ hasKey acc k = true) := by
  induction l generalizing acc with
  | nil => simp
  | cons p ps ih =>
    simp only [List.foldl_cons, ih, hasKey_dictSet_iff, List.map_cons, List.mem_cons]
    tauto

theorem hasKey_dictZip {ks : List String} {vs : List Value} (h : ks.length ≤ vs.length)
    (k : String) : hasKey (dictZip ks vs) k = true ↔ k ∈ ks := by
  rw [dictZip, hasKey_foldl_dictSet, List.map_fst_zip ks vs h]
  simp [hasKey]

theorem dictSet_values_sub {r : Record} {k : String} {v : Value} {P : Value → Prop}
    (hr : ∀ p ∈ r, P p.2) (hv : P v) : ∀ p ∈ dictSet r k v, P p.2 := by
  intro p hp
  simp only [dictSet] at hp
  by_cases h : hasKey r k = true
  · simp only [h, if_true, List.mem_map] at hp
    rcases hp with ⟨q, hq, hpq⟩
    by_cases h2 : q.1 = k
    · simp only [h2, beq_self_eq_true, if_true] at hpq
      exact hpq ▸ hv
    · have : (q.1 == k) = false := by simp [h2]
      simp only [this, Bool.false_eq_true, if_false] at hpq
      exact hpq ▸ hr q hq
  · simp only [Bool.not_eq_true] at h
    simp only [h, Bool.false_eq_true, if_false, List.mem_append, List.mem_singleton] at hp
    rcases hp with hp | hp
    · exact hr p hp
    · exact hp ▸ hv

theorem dictZip_values_none (ks : List String) (vs : List Value)
    (h : ∀ v ∈ vs, v = Value.none) : ∀ p ∈ dictZip ks vs, p.2 = Value.none := by
  have : ∀ (l : List (String × Value)) (acc : Record),
      (∀ q ∈ l, q.2 = Value.none) → (∀ p ∈ acc, p.2 = Value.none) →
      ∀ p ∈ l.foldl (fun r p => dictSet r p.1 p.2) acc, p.2 = Value.none := by
    intro l
    induction l with
    | nil => intro acc _ hacc p hp; exact hacc p hp
    | cons q qs ih =>
      intro acc hl hacc p hp
      refine ih _ (fun q' hq' => hl q' (List.mem_cons_of_mem _ hq')) ?_ p hp
      exact @dictSet_values_sub acc q.1 q.2 (fun v => v = Value.none) hacc
        (hl q (List.mem_cons_self _ _))
  refine this _ [] ?_ (by simp)
  intro q hq
  exact h q.2 (List.mem_zip hq).2

theorem getV_eq_none_of_values_none {r : Record}
    (h : ∀ p ∈ r, p.2 = Value.none) (k : String) : getV r k = Value.none := by
  simp only [getV, rowGet?]
  cases hf : r.find? (fun p => p.1 == k) with
  | none => rfl
  | some p => simpa using h p (List.mem_of_find?_eq_some hf)

/-
Lookup lemmas: the defaultdict built by join groups the right rows by
Python-equality classes of their rid value, keeping first-seen key order and,
within an entry, the right table's row order.
-/

theorem keys_lookupAdd {lk : Lookup} {w : Value} {r : Record} :
    ∀ k ∈ (lookupAdd lk w r).map Prod.fst, k ∈ lk.map Prod.fst ∨ k = w := by
  induction lk with
  | nil => simp [lookupAdd]
  | cons e es ih =>
    intro k hk
    simp only [lookupAdd] at hk
    by_cases h : pyEq e.1 w = true
    · simp only [h, if_true, List.map_cons, List.mem_cons] at hk
      rcases hk with rfl | hk
      · exact Or.inl (by simp)
      · exact Or.inl (by simp [hk])
    · simp only [h, Bool.false_eq_true, if_false, List.map_cons, List.mem_cons] at hk
      rcases hk with rfl | hk
      · exact Or.inl (by simp)
      · rcases ih k hk with h2 | h2
        · exact Or.inl (by simp [h2])
        · exact Or.inr h2

/-- Entry keys of a lookup are pairwise non-Python-equal. -/
def pairwiseKeys (lk : Lookup) : Prop :=
  (lk.map Prod.fst).Pairwise (fun a b => pyEq a b = false)

theorem lookupAdd_pairwise {lk : Lookup} {w : Value} {r : Record}
    (h : pairwiseKeys lk) : pairwiseKeys (lookupAdd lk w r) := by
  induction lk with
  | nil => simp [pairwiseKeys, lookupAdd]
  | cons e es ih =>
    simp only [pairwiseKeys, lookupAdd] at *
    by_cases hw : pyEq e.1 w = true
    · simpa [hw] using h
    · simp only [hw, Bool.false_eq_true, if_false, List.map_cons, List.pairwise_cons] at h ⊢
      refine ⟨?_, ih h.2⟩
      intro k hk
      rcases keys_lookupAdd k hk with h2 | rfl
      · exact h.1 k h2
      · simpa using hw

theorem lookupFind_lookupAdd (lk : Lookup) (w : Value) (r : Record) (v : Value) :
    lookupFind (lookupAdd lk w r) v =
      if pyEq w v then
        (match lookupFind lk v with
         | some xs => some (xs ++ [r])
         | Option.none => some [r])
      else lookupFind lk v := by
  induction lk with
  | nil =>
    by_cases h : pyEq w v = true <;> simp [lookupAdd, lookupFind, List.find?, h]
  | cons e es ih =>
    simp only [lookupAdd]
    by_cases hew : pyEq e.1 w = true
    · rw [if_pos hew]
      by_cases hwv : pyEq w v = true
      · have hev : pyEq e.1 v = true := pyEq_trans hew hwv
        simp [lookupFind, List.find?_cons, hev, hwv]
      · have hev : pyEq e.1 v = false := by
          cases h2 : pyEq e.1 v with
          | false => rfl
          | true =>
            have := pyEq_trans (pyEq_symm e.1 w ▸ hew) h2
            rw [this] at hwv
            exact absurd rfl hwv
        simp [lookupFind, List.find?_cons, hev, hwv]
    · rw [if_neg hew]
      by_cases hev : pyEq e.1 v = true
      · have hwv : pyEq w v = false := by
          cases h2 : pyEq w v with
          | false => rfl
          | true =>
            have := pyEq_trans hev (pyEq_symm w v ▸ h2)
            rw [this] at hew
            exact absurd rfl hew
        simp [lookupFind, List.find?_cons, hev, hwv]
      · simpa [lookupFind, List.find?_cons, hev] using ih

theorem lookupFind_foldl (rows : List Record) (rid : String) (acc : Lookup) (v : Value) :
    lookupFind (rows.foldl (fun lk r => lookupAdd lk (getV r rid) r) acc) v =
      match lookupFind acc v with
      | some xs => some (xs ++ rows.filter (fun r => pyEq (getV r rid) v))
      | Option.none =>
        (if (rows.filter (fun r => pyEq (getV r rid) v)).isEmpty then Option.none
         else some (rows.filter (fun r => pyEq (getV r rid) v))) := by
  induction rows generalizing acc with
  | nil =>
    cases h : lookupFind acc v <;> simp [h]
  | cons r rest ih =>
    simp only [List.foldl_cons, ih, lookupFind_lookupAdd]
    by_cases h : pyEq (getV r rid) v = true
    · cases h2 : lookupFind acc v <;> simp [h, h2, List.filter_cons]
    · cases h2 : lookupFind acc v <;> simp [h, h2, List.filter_cons]

theorem lookupFind_lookupOfP (rid : String) (rows : List Record) (v : Value) :
    lookupFind (lookupOfP rid rows) v =
      (if (rows.filter (fun r => pyEq (getV r rid) v)).isEmpty then Option.none
       else some (rows.filter (fun r => pyEq (getV r rid) v))) := by
  rw [lookupOfP, lookupFind_foldl]
  rfl

theorem lookupOfP_pairwise (rid : String) (rows : List Record) :
    pairwiseKeys (lookupOfP rid rows) := by
  have : ∀ (l : List Record) (acc : Lookup), pairwiseKeys acc →
      pairwiseKeys (l.foldl (fun lk r => lookupAdd lk (getV r rid) r) acc) := by
    intro l
    induction l with
    | nil => intro acc h; exact h
    | cons r rest ih => intro acc h; exact ih _ (lookupAdd_pairwise h)
  exact this rows [] (by simp [pairwiseKeys])

theorem lookupFind_self_of_pairwise {lk : Lookup} (h : pairwiseKeys lk) :
    ∀ e ∈ lk, lookupFind lk e.1 = some e.2 := by
  induction lk with
  | nil => simp
  | cons f fs ih =>
    intro e he
    rcases List.mem_cons.mp he with rfl | he2
    · simp [lookupFind, List.find?_cons, pyEq_refl]
    · simp only [pairwiseKeys, List.map_cons, List.pairwise_cons] at h
      have hne : pyEq f.1 e.1 = false := h.1 e.1 (List.mem_map_of_mem Prod.fst he2)
      simpa [lookupFind, List.find?_cons, hne] using ih h.2 e he2

/-- Every entry of the lookup holds exactly the right rows whose rid value is
Python-equal to the entry key, in right-table order, and is nonempty. -/
theorem lookupOfP_entry {rid : String} {rows : List Record} {e : Value × List Record}
    (he : e ∈ lookupOfP rid rows) :
    e.2 = rows.filter (fun r => pyEq (getV r rid) e.1) ∧ e.2 ≠ [] := by
  have h1 := lookupFind_self_of_pairwise (lookupOfP_pairwise rid rows) e he
  rw [lookupFind_lookupOfP] at h1
  by_cases h2 : (rows.filter (fun r => pyEq (getV r rid) e.1)).isEmpty = true
  · rw [if_pos h2] at h1
    exact absurd h1 (by simp)
  · rw [if_neg h2] at h1
    have h3 : e.2 = rows.filter (fun r => pyEq (getV r rid) e.1) :=
      (Option.some.injEq _ _ ▸ h1.symm : _)
    refine ⟨h3, ?_⟩
    rw [h3]
    intro hnil
    rw [hnil] at h2
    exact h2 rfl

/-- Every entry key is Python-equal to the rid value of some right row. -/
theorem lookupOfP_entry_key {rid : String} {rows : List Record} {e : Value × List Record}
    (he : e ∈ lookupOfP rid rows) :
    ∃ r ∈ rows, pyEq (getV r rid) e.1 = true := by
  rcases lookupOfP_entry he with ⟨h1, h2⟩
  rcases List.exists_mem_of_ne_nil _ h2 with ⟨r, hr⟩
  rw [h1] at hr
  rcases List.mem_filter.mp hr with ⟨hr1, hr2⟩
  exact ⟨r, hr1, by simpa using hr2⟩

theorem buildLookupFrom_ok {rid : String} {rows : List Record}
    (h : ∀ r ∈ rows, hasKey r rid = true) (acc : Lookup) :
    buildLookupFrom rid acc rows =
      .ok (rows.foldl (fun lk r => lookupAdd lk (getV r rid) r) acc) := by
  induction rows generalizing acc with
  | nil => rfl
  | cons r rest ih =>
    have hr : rowGet? r rid = some (getV r rid) :=
      rowGet?_eq_some_getV (h r (List.mem_cons_self _ _))
    simp only [buildLookupFrom, hr, List.foldl_cons]
    exact ih (fun q hq => h q (List.mem_cons_of_mem _ hq)) _

theorem buildLookup_ok {rid : String} {rows : List Record}
    (h : ∀ r ∈ rows, hasKey r rid = true) :
    buildLookup rid rows = .ok (lookupOfP rid rows) :=
  buildLookupFrom_ok h []

/-
Joined-row lemmas.
-/

theorem mapM_ok_of_forall {α β : Type} {f : α → Except PyErr β} {g : α → β} {xs : List α}
    (h : ∀ x ∈ xs, f x = .ok (g x)) : xs.mapM f = .ok (xs.map g) := by
  induction xs with
  | nil => rfl
  | cons x xs ih =>
    rw [List.mapM_cons, h x (List.mem_cons_self _ _),
      ih (fun q hq => h q (List.mem_cons_of_mem _ hq))]
    rfl

theorem joinrowE_ok {lcols rcols : List String} {lid rid : String} {a b : Record}
    (halid : hasKey a lid = true)
    (ha : ∀ k ∈ lcols.filter (fun k => k != lid), hasKey a k = true)
    (hb : ∀ k ∈ rcols.filter (fun k => k != rid), hasKey b k = true)
    (hbrid : getV a lid = Value.none → hasKey b rid = true) :
    joinrowE lcols rcols lid rid a b = .ok (specRowVals lcols rcols lid rid a b) := by
  have hal : (lcols.filter (fun k => k != lid)).mapM (fun k => getE a k) =
      .ok ((lcols.filter (fun k => k != lid)).map (getV a)) :=
    mapM_ok_of_forall (fun k hk => getE_of_hasKey (ha k hk))
  have hbl : (rcols.filter (fun k => k != rid)).mapM (fun k => getE b k) =
      .ok ((rcols.filter (fun k => k != rid)).map (getV b)) :=
    mapM_ok_of_forall (fun k hk => getE_of_hasKey (hb k hk))
  simp only [joinrowE, getE_of_hasKey halid, hal, hbl]
  by_cases hn : getV a lid = Value.none
  · rw [if_neg (by simp [hn]), getE_of_hasKey (hbrid hn)]
    simp [specRowVals, hn]
  · rw [if_pos hn]
    simp [specRowVals, hn]

theorem specRowVals_length (lcols rcols : List String) (lid rid : String) (a b : Record) :
    (specRowVals lcols rcols lid rid a b).length =
      (specJoinCols lcols rcols lid rid).length := by
  simp [specRowVals, specJoinCols]

theorem specDummyVals_length (lcols rcols : List String) (lid rid : String) (b : Record) :
    (specDummyVals lcols rcols lid rid b).length =
      (specJoinCols lcols rcols lid rid).length := by
  simp [specDummyVals, specJoinCols]

theorem getV_dummyL {lcols : List String} {k : String} :
    getV (dictZip lcols (lcols.map (fun _ => Value.none))) k = Value.none :=
  getV_eq_none_of_values_none
    (dictZip_values_none _ _ (by simp)) k

theorem joinrowE_dummyL {lcols rcols : List String} {lid rid : String} {b : Record}
    (hlid : lid ∈ lcols)
    (hb : ∀ k ∈ rcols.filter (fun k => k != rid), hasKey b k = true)
    (hbrid : hasKey b rid = true) :
    joinrowE lcols rcols lid rid (dictZip lcols (lcols.map (fun _ => Value.none))) b =
      .ok (specDummyVals lcols rcols lid rid b) := by
  have hlen : lcols.length ≤ (lcols.map (fun _ => Value.none)).length := by simp
  have h1 : joinrowE lcols rcols lid rid (dictZip lcols (lcols.map (fun _ => Value.none))) b =
      .ok (specRowVals lcols rcols lid rid (dictZip lcols (lcols.map (fun _ => Value.none))) b) :=
    joinrowE_ok ((hasKey_dictZip hlen lid).mpr hlid)
      (fun k hk => (hasKey_dictZip hlen k).mpr (List.mem_of_mem_filter hk))
      hb (fun _ => hbrid)
  rw [h1]
  congr 1
  simp only [specRowVals, specDummyVals, getV_dummyL, ne_eq, not_true_eq_false, if_false]
  congr 1
  congr 1
  exact List.map_congr_left (fun k _ => getV_dummyL)

theorem pyMem_iff {v : Value} {l : List Value} :
    pyMem v l = true ↔ ∃ w ∈ l, pyEq w v = true := by
  induction l with
  | nil => simp [pyMem]
  | cons w ws ih => simp [pyMem, ih]

theorem addSeqRows_ok (cols : List String) (rows : List Record)
    (lists : List (List Value)) (h : ∀ vs ∈ lists, vs.length = cols.length) :
    Table.addSeqRows ⟨cols, rows⟩ lists = .ok ⟨cols, rows ++ lists.map (dictZip cols)⟩ := by
  induction lists generalizing rows with
  | nil => simp [Table.addSeqRows]
  | cons vs rest ih =>
    have hv : ¬ vs.length ≠ cols.length := by
      simpa using h vs (List.mem_cons_self _ _)
    simp only [Table.addSeqRows, Table._addrow, hv, if_false, List.map_cons]
    rw [ih (rows ++ [dictZip cols vs]) (fun q hq => h q (List.mem_cons_of_mem _ hq))]
    simp

theorem addSeqRows_inv {t t' : Table} {lists : List (List Value)}
    (h : t.addSeqRows lists = .ok t') :
    t'.columns = t.columns ∧
      ∀ r ∈ t'.rows, r ∈ t.rows ∨
        ∃ vs, vs.length = t.columns.length ∧ r = dictZip t.columns vs := by
  induction lists generalizing t with
  | nil =>
    simp only [Table.addSeqRows, Except.ok.injEq] at h
    subst h
    exact ⟨rfl, fun r hr => Or.inl hr⟩
  | cons vs rest ih =>
    simp only [Table.addSeqRows, Table._addrow] at h
    by_cases hv : vs.length ≠ t.columns.length
    · rw [if_pos hv] at h
      exact absurd h (by simp)
    · rw [if_neg hv] at h
      rcases ih h with ⟨hc, hr⟩
      refine ⟨hc, fun r hrr => ?_⟩
      rcases hr r hrr with h2 | ⟨ws, hw1, hw2⟩
      · rcases List.mem_append.mp h2 with h3 | h3
        · exact Or.inl h3
        · rcases List.mem_singleton.mp h3 with rfl
          exact Or.inr ⟨vs, by simpa using hv, rfl⟩
      · exact Or.inr ⟨ws, hw1, hw2⟩

/-
Characterization of the two passes of join under the hypothesis that both
tables' rows expose all their schema columns.
-/

theorem processLeft_ok {lcols rcols : List String} {lid rid : String}
    {takeLeft takeRight : Bool} {rrows : List Record} (lrows : List Record)
    (hlid : lid ∈ lcols)
    (hrid : rid ∈ rcols)
    (hl : ∀ r ∈ lrows, ∀ k ∈ lcols, hasKey r k = true)
    (hr : ∀ r ∈ rrows, ∀ k ∈ rcols, hasKey r k = true) :
    processLeft (lookupOfP rid rrows) lcols rcols lid rid takeLeft takeRight lrows =
      .ok (lrows.flatMap (fun l =>
             (rrows.filter (fun r => pyEq (getV r rid) (getV l lid))).map
               (specRowVals lcols rcols lid rid l)),
           (if takeLeft then
              lrows.filter (fun l =>
                (rrows.filter (fun r => pyEq (getV r rid) (getV l lid))).isEmpty)
            else []),
           (if takeRight then
              (lrows.filter (fun l =>
                !(rrows.filter (fun r => pyEq (getV r rid) (getV l lid))).isEmpty)).map
                (fun l => getV l lid)
            else [])) := by
  induction lrows with
  | nil => simp [processLeft]
  | cons row rest ih =>
    have hrow : ∀ k ∈ lcols, hasKey row k = true := hl row (List.mem_cons_self _ _)
    have hrest : ∀ r ∈ rest, ∀ k ∈ lcols, hasKey r k = true :=
      fun r hrr => hl r (List.mem_cons_of_mem _ hrr)
    have hget : getE row lid = .ok (getV row lid) := getE_of_hasKey (hrow lid hlid)
    simp only [processLeft, hget, lookupFind_lookupOfP]
    by_cases hemp : (rrows.filter (fun r => pyEq (getV r rid) (getV row lid))).isEmpty = true
    · rw [if_pos hemp, ih hrest]
      simp only [List.flatMap_cons, List.filter_cons, hemp, Bool.not_true, Bool.false_eq_true,
        if_false, if_true]
      rw [List.isEmpty_iff.mp hemp]
      cases takeLeft <;> cases takeRight <;> simp
    · rw [if_neg hemp]
      have hok : (rrows.filter (fun r => pyEq (getV r rid) (getV row lid))).mapM
          (fun rr => joinrowE lcols rcols lid rid row rr) =
          .ok ((rrows.filter (fun r => pyEq (getV r rid) (getV row lid))).map
            (specRowVals lcols rcols lid rid row)) := by
        refine mapM_ok_of_forall (fun rr hrr => ?_)
        have hrrm : rr ∈ rrows := List.mem_of_mem_filter hrr
        exact joinrowE_ok (hrow lid hlid)
          (fun k hk => hrow k (List.mem_of_mem_filter hk))
          (fun k hk => hr rr hrrm k (List.mem_of_mem_filter hk))
          (fun _ => hr rr hrrm rid hrid)
      simp only [hok, ih hrest]
      simp only [List.flatMap_cons, List.filter_cons, hemp, Bool.not_false, Bool.false_eq_true,
        if_false, if_true]
      cases takeLeft <;> cases takeRight <;> simp

theorem rightPass_ok {lcols rcols : List String} {lid rid : String}
    {rrows lrows : List Record} {lk : Lookup}
    (hlid : lid ∈ lcols)
    (hrid : rid ∈ rcols)
    (hr : ∀ r ∈ rrows, ∀ k ∈ rcols, hasKey r k = true)
    (hlk : ∀ e ∈ lk, (∀ rr ∈ e.2, rr ∈ rrows) ∧ ∃ r0 ∈ rrows, pyEq (getV r0 rid) e.1 = true) :
    rightPass lcols rcols lid rid (dictZip lcols (lcols.map (fun _ => Value.none)))
        ((lrows.filter (fun l =>
           !(rrows.filter (fun r => pyEq (getV r rid) (getV l lid))).isEmpty)).map
          (fun l => getV l lid)) lk =
      .ok (lk.flatMap (fun e =>
        if lrows.any (fun l => pyEq (getV l lid) e.1) then []
        else e.2.map (specDummyVals lcols rcols lid rid))) := by
  induction lk with
  | nil => simp [rightPass]
  | cons e es ih =>
    have he := hlk e (List.mem_cons_self _ _)
    have hes : ∀ f ∈ es, (∀ rr ∈ f.2, rr ∈ rrows) ∧
        ∃ r0 ∈ rrows, pyEq (getV r0 rid) f.1 = true :=
      fun f hf => hlk f (List.mem_cons_of_mem _ hf)
    have hmem : pyMem e.1 ((lrows.filter (fun l =>
        !(rrows.filter (fun r => pyEq (getV r rid) (getV l lid))).isEmpty)).map
        (fun l => getV l lid)) = lrows.any (fun l => pyEq (getV l lid) e.1) := by
      by_cases hany : lrows.any (fun l => pyEq (getV l lid) e.1) = true
      · rw [hany]
        rcases List.any_eq_true.mp hany with ⟨l, hlm, hpe⟩
        refine pyMem_iff.mpr ⟨getV l lid, ?_, hpe⟩
        refine List.mem_map_of_mem _ (List.mem_filter.mpr ⟨hlm, ?_⟩)
        rcases he.2 with ⟨r0, hr0, hpr0⟩
        have : pyEq (getV r0 rid) (getV l lid) = true :=
          pyEq_trans hpr0 (pyEq_symm (getV l lid) e.1 ▸ hpe)
        simp only [Bool.not_eq_true']
        rw [← Bool.not_eq_true]
        intro hemp
        rcases List.isEmpty_iff.mp hemp with hnil
        have : r0 ∈ rrows.filter (fun r => pyEq (getV r rid) (getV l lid)) :=
          List.mem_filter.mpr ⟨hr0, this⟩
        rw [hnil] at this
        exact absurd this (List.not_mem_nil r0)
      · rw [Bool.eq_false_iff.mpr hany]
        rw [← Bool.not_eq_true]
        intro hpm
        rcases pyMem_iff.mp hpm with ⟨w, hw, hpe⟩
        rcases List.mem_map.mp hw with ⟨l, hlf, rfl⟩
        exact hany (List.any_eq_true.mpr ⟨l, List.mem_of_mem_filter hlf, hpe⟩)
    simp only [rightPass, hmem]
    by_cases hany : lrows.any (fun l => pyEq (getV l lid) e.1) = true
    · simp only [hany, if_true, ih hes]
      rw [List.flatMap_cons, if_pos hany]
    · simp only [Bool.eq_false_iff.mpr hany, Bool.false_eq_true, if_false]
      have hok : e.2.mapM (fun rr => joinrowE lcols rcols lid rid
          (dictZip lcols (lcols.map (fun _ => Value.none))) rr) =
          .ok (e.2.map (specDummyVals lcols rcols lid rid)) := by
        refine mapM_ok_of_forall (fun rr hrr => ?_)
        have hrrm : rr ∈ rrows := he.1 rr hrr
        exact joinrowE_dummyL hlid
          (fun k hk => hr rr hrrm k (List.mem_of_mem_filter hk))
          (hr rr hrrm rid hrid)
      simp only [hok, ih hes]
      rw [List.flatMap_cons, if_neg hany]

/-- Full characterization of join for any mode that does not keep
left-unmatched rows (inner, right, and -- because the source never validates
the mode -- any unrecognized mode string), for tables whose rows expose all
their schema columns and whose join keys are present in the schemas. -/
theorem join_spec_of_no_takeLeft (L R : Table) (lid rid : String) (mode : String)
    (hTL : (mode == "left" || mode == "outer") = false)
    (hlid : lid ∈ L.columns) (hrid : rid ∈ R.columns)
    (hL : ∀ r ∈ L.rows, ∀ k ∈ L.columns, hasKey r k = true)
    (hR : ∀ r ∈ R.rows, ∀ k ∈ R.columns, hasKey r k = true) :
    L.join R (JoinOn.pair lid rid) mode =
      .ok ⟨specJoinCols L.columns R.columns lid rid,
           specMatchedRows L R lid rid ++
             (if (mode == "right" || mode == "outer") = true
              then specRightUnmatchedRows L R lid rid else [])⟩ := by
  have hRrid : ∀ r ∈ R.rows, hasKey r rid = true := fun r hr => hR r hr rid hrid
  have hbl : buildLookup rid R.rows = .ok (lookupOfP rid R.rows) := buildLookup_ok hRrid
  have hjc : joinCols L.columns R.columns lid rid =
      .ok (specJoinCols L.columns R.columns lid rid) := by
    simp [joinCols, hlid, specJoinCols]
  have hmatchlen : ∀ vs ∈ L.rows.flatMap (fun l =>
      (R.rows.filter (fun r => pyEq (getV r rid) (getV l lid))).map
        (specRowVals L.columns R.columns lid rid l)),
      vs.length = (specJoinCols L.columns R.columns lid rid).length := by
    intro vs hvs
    rcases List.mem_flatMap.mp hvs with ⟨l, _, hvl⟩
    rcases List.mem_map.mp hvl with ⟨r, _, rfl⟩
    exact specRowVals_length _ _ _ _ _ _
  have hlk : ∀ e ∈ lookupOfP rid R.rows,
      (∀ rr ∈ e.2, rr ∈ R.rows) ∧ ∃ r0 ∈ R.rows, pyEq (getV r0 rid) e.1 = true := by
    intro e he
    refine ⟨fun rr hrr => ?_, lookupOfP_entry_key he⟩
    rw [(lookupOfP_entry he).1] at hrr
    exact List.mem_of_mem_filter hrr
  simp only [Table.join, JoinOn.lid, JoinOn.rid, hbl, hjc,
    processLeft_ok L.rows hlid hrid hL hR, hTL, Bool.false_eq_true, if_false,
    Bool.false_and, Bool.not_false,
    addSeqRows_ok _ _ _ hmatchlen, List.nil_append]
  by_cases hTR : (mode == "right" || mode == "outer") = true
  · have hrightlen : ∀ vs ∈ (lookupOfP rid R.rows).flatMap (fun e =>
        if L.rows.any (fun l => pyEq (getV l lid) e.1) then []
        else e.2.map (specDummyVals L.columns R.columns lid rid)),
        vs.length = (specJoinCols L.columns R.columns lid rid).length := by
      intro vs hvs
      rcases List.mem_flatMap.mp hvs with ⟨e, _, hve⟩
      by_cases hc : L.rows.any (fun l => pyEq (getV l lid) e.1) = true
      · rw [if_pos hc] at hve
        exact absurd hve (List.not_mem_nil vs)
      · rw [if_neg hc] at hve
        rcases List.mem_map.mp hve with ⟨r, _, rfl⟩
        exact specDummyVals_length _ _ _ _ _
    simp only [hTR, if_true, rightPass_ok hlid hrid hR hlk,
      addSeqRows_ok _ _ _ hrightlen]
    congr 1
    simp only [specMatchedRows, specRightUnmatchedRows, List.map_flatMap, List.map_map,
      Function.comp_def]
    congr 1
    refine congrArg₂ (fun x y => x ++ y) rfl (List.flatMap_congr (fun e _ => ?_))
    by_cases hc : L.rows.any (fun l => pyEq (getV l lid) e.1) = true <;>
      simp [hc, Function.comp_def]
  · simp only [hTR, Bool.false_eq_true, if_false, Table.addSeqRows]
    congr 1
    simp only [specMatchedRows, List.map_flatMap, List.map_map, List.append_nil,
      Function.comp_def]

/-
Key-set invariant (claim C8): every record's key set equals the schema.
-/

/-- The invariant claimed by the spec: every record's key set is exactly the
set of schema column names. -/
def KeysInv (t : Table) : Prop :=
  ∀ r ∈ t.rows, ∀ k, hasKey r k = true ↔ k ∈ t.columns

/-- Well-formedness of a store: unique column names, records with unique keys,
and the key-set invariant. -/
def WF (t : Table) : Prop :=
  t.columns.Nodup ∧ (∀ r ∈ t.rows, (r.map Prod.fst).Nodup) ∧ KeysInv t

theorem hasKey_eq_false_iff {r : Record} {k : String} :
    hasKey r k = false ↔ k ∉ r.map Prod.fst := by
  rw [← Bool.not_eq_true, not_iff_not, hasKey_iff]
  simp

theorem keys_dictSet_of_hasKey {r : Record} {k : String} {v : Value}
    (h : hasKey r k = true) : (dictSet r k v).map Prod.fst = r.map Prod.fst := by
  simp only [dictSet, h, if_true, List.map_map]
  refine List.map_congr_left (fun p _ => ?_)
  by_cases h2 : p.1 = k
  · simp [h2]
  · simp [h2]

theorem keysNodup_dictSet {r : Record} {k : String} {v : Value}
    (h : (r.map Prod.fst).Nodup) : ((dictSet r k v).map Prod.fst).Nodup := by
  by_cases hk : hasKey r k = true
  · rw [keys_dictSet_of_hasKey hk]
    exact h
  · have hk2 : k ∉ r.map Prod.fst :=
      hasKey_eq_false_iff.mp (by simpa using hk)
    simp only [dictSet, hk, Bool.false_eq_true, if_false, List.map_append, List.map_cons,
      List.map_nil]
    rw [List.nodup_append]
    exact ⟨h, List.nodup_singleton _, by simpa using hk2⟩

theorem keysNodup_dictZip (ks : List String) (vs : List Value) :
    ((dictZip ks vs).map Prod.fst).Nodup := by
  have : ∀ (l : List (String × Value)) (acc : Record), (acc.map Prod.fst).Nodup →
      ((l.foldl (fun r p => dictSet r p.1 p.2) acc).map Prod.fst).Nodup := by
    intro l
    induction l with
    | nil => exact fun acc h => h
    | cons p ps ih => exact fun acc h => ih _ (keysNodup_dictSet h)
  exact this _ [] (by simp)

theorem nodup_length_eq {l1 l2 : List String} (h1 : l1.Nodup) (h2 : l2.Nodup)
    (h : ∀ x, x ∈ l1 ↔ x ∈ l2) : l1.length = l2.length := by
  rw [← List.toFinset_card_of_nodup h1, ← List.toFinset_card_of_nodup h2]
  congr 1
  ext x
  simpa using h x

theorem hasKey_delKey {r : Record} {c k : String} :
    hasKey (delKey r c) k = true ↔ (¬ k = c ∧ hasKey r k = true) := by
  simp only [delKey, hasKey_iff, List.mem_filter]
  constructor
  · rintro ⟨p, ⟨hp, hpc⟩, rfl⟩
    exact ⟨by simpa using hpc, p, hp, rfl⟩
  · rintro ⟨hkc, p, hp, rfl⟩
    exact ⟨p, ⟨hp, by simpa using hkc⟩, rfl⟩

theorem KeysInv_addrow {t t' : Table} {d : RowData}
    (hInv : KeysInv t) (h : t._addrow d = (t', Option.none)) : KeysInv t' := by
  cases d with
  | mapping m =>
    simp only [Table._addrow, Prod.mk.injEq] at h
    rcases h with ⟨h1, _⟩
    subst h1
    intro r hr k
    rcases List.mem_append.mp hr with h2 | h2
    · exact hInv r h2 k
    · rcases List.mem_singleton.mp h2 with rfl
      exact hasKey_dictZip (by simp) k
  | seq vals =>
    simp only [Table._addrow] at h
    by_cases hv : vals.length ≠ t.columns.length
    · rw [if_pos hv] at h
      simp at h
    · rw [if_neg hv] at h
      simp only [Prod.mk.injEq] at h
      rcases h with ⟨h1, _⟩
      subst h1
      intro r hr k
      rcases List.mem_append.mp hr with h2 | h2
      · exact hInv r h2 k
      · rcases List.mem_singleton.mp h2 with rfl
        have hv2 : vals.length = t.columns.length := by simpa using hv
        exact hasKey_dictZip (le_of_eq hv2.symm) k

theorem addrow_columns {t t' : Table} {d : RowData} {e : Option PyErr}
    (h : t._addrow d = (t', e)) : t'.columns = t.columns := by
  cases d with
  | mapping m =>
    simp only [Table._addrow, Prod.mk.injEq] at h
    rw [← h.1]
  | seq vals =>
    simp only [Table._addrow] at h
    by_cases hv : vals.length ≠ t.columns.length
    · rw [if_pos hv] at h
      simp only [Prod.mk.injEq] at h
      rw [← h.1]
    · rw [if_neg hv] at h
      simp only [Prod.mk.injEq] at h
      rw [← h.1]

theorem KeysInv_add_rows {t : Table} {ds : List RowData} {t' : Table}
    (hInv : KeysInv t) (h : t.add_rows ds = (t', Option.none)) : KeysInv t' := by
  induction ds generalizing t with
  | nil =>
    simp only [Table.add_rows, Prod.mk.injEq] at h
    rw [← h.1]
    exact hInv
  | cons d rest ih =>
    simp only [Table.add_rows] at h
    cases ha : t._addrow d with
    | mk t1 e1 =>
      rw [ha] at h
      cases e1 with
      | none => exact ih (KeysInv_addrow hInv ha) h
      | some e => simp at h

theorem KeysInv_rename {t t' : Table} {oldname newname : String}
    (hW : WF t) (h : t.rename_column oldname newname = (t', Option.none)) : KeysInv t' := by
  rcases hW with ⟨hN, hRN, hInv⟩
  simp only [Table.rename_column] at h
  by_cases ho : oldname ∈ t.columns
  · rw [if_pos ho] at h
    simp only [Prod.mk.injEq] at h
    rcases h with ⟨h1, _⟩
    subst h1
    intro r hr k
    rcases List.mem_map.mp hr with ⟨r0, hr0, rfl⟩
    have hlen : r0.length = t.columns.length := by
      have := nodup_length_eq (hRN r0 hr0) hN (fun x =>
        Iff.trans (by rw [hasKey_iff]; simp) (hInv r0 hr0 x))
      simpa using this
    refine hasKey_dictZip ?_ k
    simp [dictValues, hlen]
  · rw [if_neg ho] at h
    simp at h

theorem delRows_none_inv {c : String} {rows rows' : List Record}
    (h : delRows c rows = (rows', Option.none)) :
    rows' = rows.map (fun r => delKey r c) := by
  induction rows generalizing rows' with
  | nil =>
    simp only [delRows, Prod.mk.injEq] at h
    rw [← h.1]
    rfl
  | cons r rs ih =>
    simp only [delRows] at h
    by_cases hk : hasKey r c = true
    · rw [if_pos hk] at h
      cases hd : delRows c rs with
      | mk a b =>
        rw [hd] at h
        simp only [Prod.mk.injEq] at h
        rcases h with ⟨h1, h2⟩
        subst h2
        rw [← h1, List.map_cons, ih hd]
    · rw [if_neg hk] at h
      simp at h

theorem KeysInv_remove {t t' : Table} {c : String}
    (hInv : KeysInv t) (h : t.remove_column c = (t', Option.none)) : KeysInv t' := by
  simp only [Table.remove_column] at h
  cases hd : delRows c t.rows with
  | mk a b =>
    rw [hd] at h
    simp only [Prod.mk.injEq] at h
    rcases h with ⟨h1, h2⟩
    subst h2
    subst h1
    intro r hr k
    simp only at hr
    rw [delRows_none_inv hd] at hr
    rcases List.mem_map.mp hr with ⟨r0, hr0, rfl⟩
    rw [hasKey_delKey]
    simp only [List.mem_filter, hInv r0 hr0]
    constructor
    · rintro ⟨hkc, hk⟩
      exact ⟨hk, by simpa using hkc⟩
    · rintro ⟨hk, hkc⟩
      exact ⟨by simpa using hkc, hk⟩

theorem hasKey_dictSet_mem_iff {t : Table} {r : Record} {name : String} {v : Value}
    (hr : ∀ k, hasKey r k = true ↔ k ∈ t.columns) (k : String) :
    hasKey (dictSet r name v) k = true ↔
      k ∈ (if name ∈ t.columns then t.columns else t.columns ++ [name]) := by
  rw [hasKey_dictSet_iff]
  by_cases hn : name ∈ t.columns
  · rw [if_pos hn]
    constructor
    · rintro (rfl | hk)
      · exact hn
      · exact (hr k).mp hk
    · intro hk
      exact Or.inr ((hr k).mpr hk)
  · rw [if_neg hn]
    simp only [List.mem_append, List.mem_singleton, hr k]
    tauto

theorem KeysInv_set_column {t t' : Table} {name : String} {cv : ColValue}
    (hInv : KeysInv t) (h : t.set_column name cv = (t', Option.none)) : KeysInv t' := by
  cases cv with
  | scalar v =>
    simp only [Table.set_column, Prod.mk.injEq] at h
    rcases h with ⟨h1, _⟩
    subst h1
    intro r hr k
    rcases List.mem_map.mp hr with ⟨r0, hr0, rfl⟩
    exact hasKey_dictSet_mem_iff (hInv r0 hr0) k
  | seq vs =>
    simp only [Table.set_column] at h
    by_cases hl : vs.length ≠ t.rows.length
    · rw [if_pos hl] at h
      simp at h
    · rw [if_neg hl] at h
      simp only [Prod.mk.injEq] at h
      rcases h with ⟨h1, _⟩
      subst h1
      intro r hr k
      rcases List.mem_map.mp hr with ⟨p, hp, rfl⟩
      exact hasKey_dictSet_mem_iff (hInv p.1 (List.mem_zip hp).1) k

theorem KeysInv_calculate {t : Table} {name : String} {f : Record → Value}
    (hInv : KeysInv t) : KeysInv (t.calculate_column name f) := by
  intro r hr k
  simp only [Table.calculate_column] at hr
  rcases List.mem_map.mp hr with ⟨r0, hr0, rfl⟩
  exact hasKey_dictSet_mem_iff (hInv r0 hr0) k

theorem mapRows_none_inv {c : String} {f : Value → Value} {rows rows' : List Record}
    (h : mapRows c f rows = (rows', Option.none)) :
    ∀ r' ∈ rows', ∃ r ∈ rows, hasKey r c = true ∧ ∃ w, r' = dictSet r c w := by
  induction rows generalizing rows' with
  | nil =>
    simp only [mapRows, Prod.mk.injEq] at h
    rw [← h.1]
    simp
  | cons r rs ih =>
    simp only [mapRows] at h
    cases hg : rowGet? r c with
    | none => rw [hg] at h; simp at h
    | some v =>
      rw [hg] at h
      cases hd : mapRows c f rs with
      | mk a b =>
        rw [hd] at h
        simp only [Prod.mk.injEq] at h
        rcases h with ⟨h1, h2⟩
        subst h2
        intro r' hr'
        rw [← h1] at hr'
        rcases List.mem_cons.mp hr' with rfl | hmem
        · refine ⟨r, List.mem_cons_self _ _, ?_, f v, rfl⟩
          rw [← rowGet?_isSome, hg]
          rfl
        · rcases ih hd r' hmem with ⟨r0, hr0, hk, w, hw⟩
          exact ⟨r0, List.mem_cons_of_mem _ hr0, hk, w, hw⟩

theorem KeysInv_map_column {t t' : Table} {name : String} {f : Value → Value}
    (hInv : KeysInv t) (h : t.map_column name f = (t', Option.none)) : KeysInv t' := by
  simp only [Table.map_column] at h
  by_cases hn : name ∈ t.columns
  · rw [if_pos hn] at h
    cases hd : mapRows name f t.rows with
    | mk a b =>
      rw [hd] at h
      simp only [Prod.mk.injEq] at h
      rcases h with ⟨h1, h2⟩
      subst h2
      subst h1
      intro r hr k
      simp only at hr
      rcases mapRows_none_inv hd r hr with ⟨r0, hr0, hk, w, rfl⟩
      rw [hasKey_dictSet_iff]
      simp only [hInv r0 hr0]
      constructor
      · rintro (rfl | hkk)
        · exact (hInv r0 hr0 k).mp hk
        · exact hkk
      · exact fun hkk => Or.inr hkk
  · rw [if_neg hn] at h
    simp at h

theorem mem_insertAsc {p q : Record × Int} {l : List (Record × Int)}
    (h : q ∈ insertAsc p l) : q = p ∨ q ∈ l := by
  induction l with
  | nil => simpa [insertAsc] using h
  | cons x xs ih =>
    simp only [insertAsc] at h
    by_cases hc : x.2 ≤ p.2
    · rw [if_pos hc] at h
      rcases List.mem_cons.mp h with rfl | h2
      · exact Or.inr (List.mem_cons_self _ _)
      · rcases ih h2 with h3 | h3
        · exact Or.inl h3
        · exact Or.inr (List.mem_cons_of_mem _ h3)
    · rw [if_neg hc] at h
      rcases List.mem_cons.mp h with rfl | h2
      · exact Or.inl rfl
      · exact Or.inr h2

theorem mem_insertDesc {p q : Record × Int} {l : List (Record × Int)}
    (h : q ∈ insertDesc p l) : q = p ∨ q ∈ l := by
  induction l with
  | nil => simpa [insertDesc] using h
  | cons x xs ih =>
    simp only [insertDesc] at h
    by_cases hc : p.2 ≤ x.2
    · rw [if_pos hc] at h
      rcases List.mem_cons.mp h with rfl | h2
      · exact Or.inr (List.mem_cons_self _ _)
      · rcases ih h2 with h3 | h3
        · exact Or.inl h3
        · exact Or.inr (List.mem_cons_of_mem _ h3)
    · rw [if_neg hc] at h
      rcases List.mem_cons.mp h with rfl | h2
      · exact Or.inl rfl
      · exact Or.inr h2

theorem mem_foldl_ins {ins : (Record × Int) → List (Record × Int) → List (Record × Int)}
    (hins : ∀ p q l, q ∈ ins p l → q = p ∨ q ∈ l)
    {dec : List (Record × Int)} {acc : List (Record × Int)} {q : Record × Int}
    (h : q ∈ dec.foldl (fun acc p => ins p acc) acc) : q ∈ acc ∨ q ∈ dec := by
  induction dec generalizing acc with
  | nil => exact Or.inl h
  | cons p ps ih =>
    rcases ih h with h2 | h2
    · rcases hins p q acc h2 with rfl | h3
      · exact Or.inr (List.mem_cons_self _ _)
      · exact Or.inl h3
    · exact Or.inr (List.mem_cons_of_mem _ h2)

theorem sortKeys_mem {c : String} {kc : Value → Int} {rows : List Record}
    {dec : List (Record × Int)} (h : sortKeys c kc rows = some dec) :
    ∀ p ∈ dec, p.1 ∈ rows := by
  induction rows generalizing dec with
  | nil =>
    simp only [sortKeys, Option.some.injEq] at h
    subst h
    simp
  | cons r rs ih =>
    simp only [sortKeys] at h
    cases hg : rowGet? r c with
    | none => rw [hg] at h; simp at h
    | some v =>
      rw [hg] at h
      cases hs : sortKeys c kc rs with
      | none => rw [hs] at h; simp at h
      | some d2 =>
        rw [hs] at h
        simp only [Option.map_some', Option.some.injEq] at h
        subst h
        intro p hp
        rcases List.mem_cons.mp hp with rfl | h2
        · exact List.mem_cons_self _ _
        · exact List.mem_cons_of_mem _ (ih hs p h2)

theorem KeysInv_sort {t t' : Table} {c : String} {reverse : Bool} {kc : Value → Int}
    (hInv : KeysInv t) (h : t.sort c reverse kc = (t', Option.none)) : KeysInv t' := by
  simp only [Table.sort] at h
  cases hs : sortKeys c kc t.rows with
  | none => rw [hs] at h; simp at h
  | some dec =>
    rw [hs] at h
    simp only [Prod.mk.injEq] at h
    rcases h with ⟨h1, _⟩
    subst h1
    intro r hr k
    simp only at hr
    rcases List.mem_map.mp hr with ⟨p, hp, rfl⟩
    have hmem : p ∈ dec := by
      rcases mem_foldl_ins
        (by
          intro a q l hq
          cases reverse with
          | false => exact mem_insertAsc (by simpa using hq)
          | true => exact mem_insertDesc (by simpa using hq))
        hp with h2 | h2
      · exact absurd h2 (List.not_mem_nil p)
      · exact h2
    exact hInv p.1 (sortKeys_mem hs p hmem) k

theorem join_ok_KeysInv {L R : Table} {onArg : JoinOn} {mode : String} {t' : Table}
    (h : L.join R onArg mode = .ok t') : KeysInv t' := by
  simp only [Table.join] at h
  cases hbl : buildLookup onArg.rid R.rows with
  | error e => simp only [hbl] at h; simp at h
  | ok lookup =>
    simp only [hbl] at h
    cases hjc : joinCols L.columns R.columns onArg.lid onArg.rid with
    | error e => simp only [hjc] at h; simp at h
    | ok allcolumns =>
      simp only [hjc] at h
      cases hpl : processLeft lookup L.columns R.columns onArg.lid onArg.rid
          (mode == "left" || mode == "outer") (mode == "right" || mode == "outer")
          L.rows with
      | error e => simp only [hpl] at h; simp at h
      | ok triple =>
        simp only [hpl] at h
        rcases triple with ⟨matched, leftUn, rightMatched⟩
        simp only at h
        cases ha1 : Table.addSeqRows ⟨allcolumns, []⟩ matched with
        | error e => simp only [ha1] at h; simp at h
        | ok joined1 =>
          simp only [ha1] at h
          by_cases hif : ((mode == "left" || mode == "outer") && !leftUn.isEmpty) = true
          · rw [if_pos hif] at h
            simp at h
          · rw [if_neg hif] at h
            cases hrp : (if (mode == "right" || mode == "outer") = true then
                rightPass L.columns R.columns onArg.lid onArg.rid
                  (dictZip L.columns (L.columns.map (fun _ => Value.none)))
                  rightMatched lookup
              else .ok []) with
            | error e => simp only [hrp] at h; simp at h
            | ok rightVals =>
              simp only [hrp] at h
              rcases addSeqRows_inv ha1 with ⟨hc1, hr1⟩
              rcases addSeqRows_inv h with ⟨hc2, hr2⟩
              simp only at hc1 hr1
              intro r hr k
              rcases hr2 r hr with h2 | ⟨vs, hvl, rfl⟩
              · rcases hr1 r h2 with h3 | ⟨ws, hwl, rfl⟩
                · exact absurd h3 (List.not_mem_nil r)
                · rw [hc2, hc1]
                  exact hasKey_dictZip (le_of_eq hwl.symm) k
              · rw [hc2]
                rw [hc1] at hvl ⊢
                exact hasKey_dictZip (le_of_eq hvl.symm) k

/-
Reference-model lemmas (aliasing claims C6 and C10).
-/

theorem recAt_setRecValueR (s : PyState) (i : Nat) (k : String) (v : Value) (j : Nat)
    (hi : i < s.recs.length) :
    (setRecValueR s i k v).recAt j = if j = i then dictSet (s.recAt i) k v else s.recAt j := by
  by_cases h : j = i
  · subst h
    simp [setRecValueR, PyState.recAt, List.getD_eq_getElem?_getD,
      List.getElem?_set_self, hi]
  · simp only [setRecValueR, PyState.recAt, List.getD_eq_getElem?_getD]
    rw [List.getElem?_set_ne (fun hh => h hh.symm)]
    simp [h]

theorem recAt_setRecValueR_ne (s : PyState) (i : Nat) (k : String) (v : Value) (j : Nat)
    (h : j ≠ i) : (setRecValueR s i k v).recAt j = s.recAt j := by
  simp only [setRecValueR, PyState.recAt, List.getD_eq_getElem?_getD]
  rw [List.getElem?_set_ne (fun hh => h hh.symm)]

theorem foldl_setRec_cols (refs : List Nat) (name : String) (g : PyState → Nat → Value)
    (s : PyState) :
    (refs.foldl (fun st i => setRecValueR st i name (g st i)) s).cols = s.cols := by
  induction refs generalizing s with
  | nil => rfl
  | cons i is ih => exact (ih _).trans rfl

theorem foldl_setRec_recAt (refs : List Nat) (name : String) (g : PyState → Nat → Value)
    (s : PyState) {j : Nat} (hj : j ∉ refs) :
    (refs.foldl (fun st i => setRecValueR st i name (g st i)) s).recAt j = s.recAt j := by
  induction refs generalizing s with
  | nil => rfl
  | cons i is ih =>
    have hji : j ≠ i := fun hh => hj (hh ▸ List.mem_cons_self _ _)
    have hjs : j ∉ is := fun hh => hj (List.mem_cons_of_mem _ hh)
    exact (ih _ hjs).trans (recAt_setRecValueR_ne s i name (g s i) j hji)

theorem colsAt_set_self (s : PyState) (t : RTable) (x : List String)
    (h : t.colsref < s.cols.length) :
    ({ s with cols := s.cols.set t.colsref x } : PyState).colsAt t = x := by
  simp [PyState.colsAt, List.getD_eq_getElem?_getD, List.getElem?_set_self, h]

theorem derefRows_filterRowsR (s : PyState) (t : RTable) (pred : Record → Bool) :
    derefRows s (filterRowsR s t pred) = (derefRows s t).filter pred := by
  simp only [derefRows, filterRowsR]
  rw [List.filter_map]
  simp [Function.comp_def]

theorem delRows_ok {c : String} {rows : List Record}
    (h : ∀ r ∈ rows, hasKey r c = true) :
    delRows c rows = (rows.map (fun r => delKey r c), Option.none) := by
  induction rows with
  | nil => rfl
  | cons r rs ih =>
    simp only [delRows, h r (List.mem_cons_self _ _), if_true, List.map_cons,
      ih (fun q hq => h q (List.mem_cons_of_mem _ hq))]

/-- The two membership tests on the mode string are the only uses of `mode` in
join, so two modes with the same flags produce identical joins. -/
theorem join_mode_flags (L R : Table) (onArg : JoinOn) (mode : String)
    (h1 : (mode == "left" || mode == "outer") = false)
    (h2 : (mode == "right" || mode == "outer") = false) :
    L.join R onArg mode = L.join R onArg "inner" := by
  have g1 : (("inner" : String) == "left" || ("inner" : String) == "outer") = false := by
    decide
  have g2 : (("inner" : String) == "right" || ("inner" : String) == "outer") = false := by
    decide
  simp only [Table.join, h1, h2, g1, g2]

/-
Claim theorems.
-/

/-- C1: the spec says a left join of the example tables returns the 3 inner
rows plus one row for id=3 with x,y missing.  The code cannot: emitting a
left-unmatched row executes `joined.insert(...)` (source line 379), and Table
defines no method `insert`, so the call raises AttributeError instead of
returning a table.  This theorem evaluates the embedded code at the spec's own
example in mode left. -/
theorem claim_C1_left_join_crashes :
    Table.join exLeft exRight (JoinOn.pair "id" "id2") "left" =
      .error (PyErr.attributeError "insert") := by
  rfl

/-- C2: for modes inner and right, join returns the table whose column list is
the merged key column followed by the non-key left columns and the non-key
right columns, and whose rows are all matched combinations in left-iteration
order (right duplicates adjacent per left row), followed -- in mode right --
by one row per right record whose key matched no left record, in the lookup's
first-seen key order, with None for every left column except the key, which
takes the right key value. -/
theorem claim_C2_join_inner_right (L R : Table) (lid rid : String) (mode : String)
    (hmode : mode = "inner" ∨ mode = "right")
    (hlid : lid ∈ L.columns) (hrid : rid ∈ R.columns)
    (hL : ∀ r ∈ L.rows, ∀ k ∈ L.columns, hasKey r k = true)
    (hR : ∀ r ∈ R.rows, ∀ k ∈ R.columns, hasKey r k = true) :
    L.join R (JoinOn.pair lid rid) mode =
      .ok ⟨specJoinCols L.columns R.columns lid rid,
           specMatchedRows L R lid rid ++
             (if mode = "right" then specRightUnmatchedRows L R lid rid else [])⟩ := by
  rcases hmode with rfl | rfl
  · rw [join_spec_of_no_takeLeft L R lid rid "inner" (by decide) hlid hrid hL hR]
    have e1 : (("inner" : String) == "right" || ("inner" : String) == "outer") = false := by
      decide
    rw [e1, if_neg (by decide : ¬ (false = true)),
      if_neg (by decide : ¬ ("inner" : String) = "right")]
  · rw [join_spec_of_no_takeLeft L R lid rid "right" (by decide) hlid hrid hL hR]
    have e1 : (("right" : String) == "right" || ("right" : String) == "outer") = true := by
      decide
    rw [e1, if_pos rfl, if_pos (rfl : ("right" : String) = "right")]

theorem claim_C2_witness :
    (("right" : String) = "inner" ∨ ("right" : String) = "right") ∧
    Table.join exLeft exRight (JoinOn.pair "id" "id2") "right" =
      .ok ⟨specJoinCols exLeft.columns exRight.columns "id" "id2",
           specMatchedRows exLeft exRight "id" "id2" ++
             (if ("right" : String) = "right"
              then specRightUnmatchedRows exLeft exRight "id" "id2" else [])⟩ :=
  ⟨Or.inr rfl,
   claim_C2_join_inner_right exLeft exRight "id" "id2" "right" (Or.inr rfl)
     (by decide) (by decide) (by decide) (by decide)⟩

/-- C3: the claim says every mode outside the four named values fails with
InvalidModeError.  The code never validates the mode (no such error exists in
the source); an unrecognized mode just takes none of the mode-guarded
branches, so join returns the inner-join result.  Concretely, mode "full"
on the spec's example tables returns the 3 inner rows, not an error. -/
theorem claim_C3_counterexample :
    Table.join exLeft exRight (JoinOn.pair "id" "id2") "full" =
      .ok ⟨["id", "b", "c", "x", "y"],
        [[("id", Value.int 1), ("b", Value.int 5), ("c", Value.int 6),
          ("x", Value.int 50), ("y", Value.int 60)],
         [("id", Value.int 2), ("b", Value.int 2), ("c", Value.int 3),
          ("x", Value.int 20), ("y", Value.int 30)],
         [("id", Value.int 2), ("b", Value.int 2), ("c", Value.int 3),
          ("x", Value.int 21), ("y", Value.int 31)]]⟩ := by
  rfl

/-- C3 (amended): join performs no mode validation; for any mode string
outside the four named values it raises nothing and behaves exactly like mode
"inner" (only the matched rows are returned). -/
theorem claim_C3_amended (L R : Table) (onArg : JoinOn) (mode : String)
    (h1 : mode ≠ "inner") (h2 : mode ≠ "left") (h3 : mode ≠ "right")
    (h4 : mode ≠ "outer") :
    L.join R onArg mode = L.join R onArg "inner" := by
  refine join_mode_flags L R onArg mode ?_ ?_
  · simp [beq_eq_false_iff_ne, h2, h4]
  · simp [beq_eq_false_iff_ne, h3, h4]

theorem claim_C3_witness :
    Table.join exLeft exRight (JoinOn.pair "id" "id2") "full" =
      Table.join exLeft exRight (JoinOn.pair "id" "id2") "inner" :=
  claim_C3_amended exLeft exRight (JoinOn.pair "id" "id2") "full"
    (by decide) (by decide) (by decide) (by decide)

/-- C4: the claim says an integer key never matches a boolean (or float) key
of coercible value.  Python `==` equates bool True with int 1 (bool is a
subclass of int), and the join's lookup uses that equality, so a left key
`1` DOES match a right key `True`: the inner join of two singleton tables
with those keys emits one matched row. -/
theorem claim_C4_counterexample :
    Table.join ⟨["id", "b"], [[("id", Value.int 1), ("b", Value.int 5)]]⟩
        ⟨["id2", "x"], [[("id2", Value.bool true), ("x", Value.int 7)]]⟩
        (JoinOn.pair "id" "id2") "inner" =
      .ok ⟨["id", "b", "x"],
           [[("id", Value.int 1), ("b", Value.int 5), ("x", Value.int 7)]]⟩ := by
  rfl

/-- C4 (amended): join matches a left and right row exactly when their key
values are Python-equal (`pyEq`): equality never coerces between numbers and
strings (so numeric-string mismatches never match), but numeric types compare
by value, so an integer key does match a boolean key of equal numeric value.
On singleton stores the join emits the matched row iff the keys are
Python-equal. -/
theorem claim_C4_amended (v w : Value) :
    (Table.join ⟨["id"], [[("id", v)]]⟩ ⟨["id2"], [[("id2", w)]]⟩
        (JoinOn.pair "id" "id2") "inner" =
      .ok ⟨["id"],
           if pyEq v w then [[("id", if v ≠ Value.none then v else w)]] else []⟩) ∧
    (∀ s : String, ∀ n : Int, pyEq (Value.str s) (Value.int n) = false) ∧
    (∀ n : Int, ∀ s : String, pyEq (Value.int n) (Value.str s) = false) ∧
    pyEq (Value.int 1) (Value.bool true) = true := by
  refine ⟨?_, fun s n => rfl, fun n s => rfl, rfl⟩
  rw [join_spec_of_no_takeLeft ⟨["id"], [[("id", v)]]⟩ ⟨["id2"], [[("id2", w)]]⟩
    "id" "id2" "inner" (by decide) (by simp) (by simp)
    (by
      intro r hr k hk
      simp only [List.mem_singleton] at hr hk
      subst hr
      subst hk
      simp [hasKey])
    (by
      intro r hr k hk
      simp only [List.mem_singleton] at hr hk
      subst hr
      subst hk
      simp [hasKey])]
  have e1 : (("inner" : String) == "right" || ("inner" : String) == "outer") = false := by
    decide
  rw [e1, if_neg (by decide : ¬ (false = true)), List.append_nil]
  have hga : getV [(("id" : String), v)] "id" = v := by simp [getV, rowGet?]
  have hgb : getV [(("id2" : String), w)] "id2" = w := by simp [getV, rowGet?]
  simp only [specMatchedRows, specJoinCols, specRowVals, List.flatMap_cons,
    List.flatMap_nil, List.filter_cons, List.filter_nil, hga, hgb]
  rw [pyEq_symm w v]
  by_cases hvw : pyEq v w = true
  · simp only [hvw, if_true]
    simp [dictZip, dictSet, hasKey, hgb]
  · simp only [Bool.eq_false_iff.mpr hvw, Bool.false_eq_true, if_false]
    simp

/-- C5: the claim says select("*") returns an independent full copy.  The code
cannot for any store with at least one row: select_columns calls `st.insert`
(source line 289), a method Table never defines, so it raises AttributeError.
This theorem evaluates the embedded code at a one-row store. -/
theorem claim_C5_select_star_crashes :
    Table.select_columns ⟨["a"], [[("a", Value.int 1)]]⟩ SelectArg.star =
      .error (PyErr.attributeError "insert") := by
  rfl

/-- C6: filter returns a store holding exactly the records satisfying the
predicate, in the original order, and those records are the same heap objects
as the source's records: a value update through a reference held by the
filtered view is seen at every position of either store holding that
reference, and likewise for updates through the original. -/
theorem claim_C6_filter_alias (s : PyState) (t : RTable) (pred : Record → Bool) :
    (filterRowsR s t pred).rowrefs = t.rowrefs.filter (fun i => pred (s.recAt i)) ∧
    derefRows s (filterRowsR s t pred) = (derefRows s t).filter pred ∧
    (∀ i ∈ (filterRowsR s t pred).rowrefs, i ∈ t.rowrefs) ∧
    (∀ i ∈ (filterRowsR s t pred).rowrefs, i < s.recs.length → ∀ k v j,
      j ∈ t.rowrefs ∨ j ∈ (filterRowsR s t pred).rowrefs →
      (setRecValueR s i k v).recAt j =
        if j = i then dictSet (s.recAt i) k v else s.recAt j) ∧
    (∀ i ∈ t.rowrefs, i < s.recs.length → ∀ k v j,
      j ∈ (filterRowsR s t pred).rowrefs →
      (setRecValueR s i k v).recAt j =
        if j = i then dictSet (s.recAt i) k v else s.recAt j) := by
  refine ⟨rfl, derefRows_filterRowsR s t pred, ?_, ?_, ?_⟩
  · intro i hi
    exact List.mem_of_mem_filter hi
  · intro i _ hlen k v j _
    exact recAt_setRecValueR s i k v j hlen
  · intro i _ hlen k v j _
    exact recAt_setRecValueR s i k v j hlen

theorem claim_C6_witness :
    (0 : Nat) ∈ (filterRowsR ⟨[["a"]], [[("a", Value.int 1)], [("a", Value.int 2)]]⟩
        ⟨0, [0, 1]⟩ (fun r => pyEq (getV r "a") (Value.int 1))).rowrefs ∧
    (0 : Nat) ∈ (⟨0, [0, 1]⟩ : RTable).rowrefs :=
  ⟨by decide,
   (claim_C6_filter_alias ⟨[["a"]], [[("a", Value.int 1)], [("a", Value.int 2)]]⟩
      ⟨0, [0, 1]⟩ (fun r => pyEq (getV r "a") (Value.int 1))).2.2.1 0 (by decide)⟩

/-- C7: the claim says a failed set_column leaves the store unchanged, the
schema in particular not gaining the new column name.  The code appends the
new name to the column list BEFORE checking the sequence length, so the
failed call leaves the name in the schema (records are indeed untouched):
on a one-row store, set_column with an empty list raises the arity ValueError
and the schema has become ["a", "b"]. -/
theorem claim_C7_counterexample :
    Table.set_column ⟨["a"], [[("a", Value.int 1)]]⟩ "b" (ColValue.seq []) =
      (⟨["a", "b"], [[("a", Value.int 1)]]⟩,
       some (PyErr.valueError "Wrong number of values ")) := by
  rfl

/-- C7 (amended): when the sequence length differs from the row count,
set_column raises the arity ValueError and updates no record, but if the
column name was new the schema does gain it (the name is appended before
validation); for an existing name the store is left fully unchanged. -/
theorem claim_C7_amended (t : Table) (name : String) (vs : List Value)
    (h : vs.length ≠ t.rows.length) :
    t.set_column name (ColValue.seq vs) =
      (⟨if name ∈ t.columns then t.columns else t.columns ++ [name], t.rows⟩,
       some (PyErr.valueError "Wrong number of values ")) := by
  simp [Table.set_column, h]

theorem claim_C7_witness :
    ([] : List Value).length ≠ (⟨["a"], [[("a", Value.int 1)]]⟩ : Table).rows.length ∧
    Table.set_column ⟨["a"], [[("a", Value.int 1)]]⟩ "b" (ColValue.seq []) =
      (⟨if ("b" : String) ∈ ["a"] then ["a"] else ["a"] ++ ["b"],
        [[("a", Value.int 1)]]⟩,
       some (PyErr.valueError "Wrong number of values ")) :=
  ⟨by decide, claim_C7_amended ⟨["a"], [[("a", Value.int 1)]]⟩ "b" [] (by decide)⟩

/-- C8: the claim says the key-set invariant holds for every store built
through the public API and is preserved by every public mutating call.  It is
not: a set_column whose sequence has the wrong length appends the new column
name to the schema and then raises, so afterwards the schema has a column no
record carries.  The store here is built through the public API (create and
add_rows). -/
theorem claim_C8_counterexample :
    ((Table.mk ["a"] []).add_rows [RowData.seq [Value.int 1]]).1.set_column "b"
        (ColValue.seq []) =
      (⟨["a", "b"], [[("a", Value.int 1)]]⟩,
       some (PyErr.valueError "Wrong number of values ")) ∧
    ¬ KeysInv ⟨["a", "b"], [[("a", Value.int 1)]]⟩ := by
  refine ⟨by rfl, fun h => ?_⟩
  have := (h [("a", Value.int 1)] (List.mem_singleton.mpr rfl) "b").mpr (by decide)
  exact absurd this (by decide)

/-- C8 (amended): for a store with unique column names whose records have
unique keys and satisfy the invariant, every public mutating call that
completes without raising preserves the invariant (append rows, rename,
remove, set, calculate, map, sort, and join into the fresh result table); the
invariant can be broken only by a call that raises after mutating (a failed
set_column with a new name) or through the column-list sharing of a filtered
view. -/
theorem claim_C8_amended (t u : Table) (hW : WF t) :
    KeysInv t ∧
    (∀ ds t', t.add_rows ds = (t', Option.none) → KeysInv t') ∧
    (∀ o n t', t.rename_column o n = (t', Option.none) → KeysInv t') ∧
    (∀ c t', t.remove_column c = (t', Option.none) → KeysInv t') ∧
    (∀ c cv t', t.set_column c cv = (t', Option.none) → KeysInv t') ∧
    (∀ c f, KeysInv (t.calculate_column c f)) ∧
    (∀ c f t', t.map_column c f = (t', Option.none) → KeysInv t') ∧
    (∀ c rev kc t', t.sort c rev kc = (t', Option.none) → KeysInv t') ∧
    (∀ onArg mode t', t.join u onArg mode = .ok t' → KeysInv t') := by
  obtain ⟨hN, hRN, hInv⟩ := hW
  exact ⟨hInv,
    fun ds t' h => KeysInv_add_rows hInv h,
    fun o n t' h => KeysInv_rename ⟨hN, hRN, hInv⟩ h,
    fun c t' h => KeysInv_remove hInv h,
    fun c cv t' h => KeysInv_set_column hInv h,
    fun c f => KeysInv_calculate hInv,
    fun c f t' h => KeysInv_map_column hInv h,
    fun c rev kc t' h => KeysInv_sort hInv h,
    fun onArg mode t' h => join_ok_KeysInv h⟩

theorem claim_C8_witness :
    WF ⟨["a"], [[("a", Value.int 1)]]⟩ ∧
    KeysInv (Table.calculate_column ⟨["a"], [[("a", Value.int 1)]]⟩ "b"
      (fun _ => Value.int 2)) := by
  have hwf : WF ⟨["a"], [[("a", Value.int 1)]]⟩ := by
    refine ⟨by decide, by decide, ?_⟩
    intro r hr k
    simp only [List.mem_singleton] at hr
    subst hr
    simp only [hasKey, List.any_cons, List.any_nil, Bool.or_false, beq_iff_eq,
      List.mem_singleton]
    exact eq_comm
  exact ⟨hwf,
    (claim_C8_amended ⟨["a"], [[("a", Value.int 1)]]⟩ ⟨["a"], []⟩ hwf).2.2.2.2.2.1
      "b" (fun _ => Value.int 2)⟩

/-- C9: the claim says remove_column on a name absent from the schema fails
with a not-found error for every store, including an empty one.  On an empty
store nothing is raised: the deletion loop never runs, so the call returns
with no error and the store unchanged. -/
theorem claim_C9_counterexample :
    Table.remove_column ⟨["a"], []⟩ "b" = (⟨["a"], []⟩, Option.none) := by
  rfl

/-- C9 (amended): for a store with at least one row, removing an absent name
raises KeyError at the first record, leaving the store unchanged; on an empty
store removing an absent name raises nothing and leaves the store unchanged;
removing a present name (held by every record) drops it from the schema and
deletes the key from every record. -/
theorem claim_C9_amended (t : Table) (c : String) :
    (t.rows ≠ [] → c ∉ t.columns → (∀ r ∈ t.rows, hasKey r c = false) →
       t.remove_column c = (t, some PyErr.keyError)) ∧
    (t.rows = [] → c ∉ t.columns → t.remove_column c = (t, Option.none)) ∧
    (c ∈ t.columns → (∀ r ∈ t.rows, hasKey r c = true) →
       t.remove_column c =
         (⟨t.columns.filter (fun x => !(x == c)),
           t.rows.map (fun r => delKey r c)⟩, Option.none)) := by
  have hfilter : c ∉ t.columns → t.columns.filter (fun x => !(x == c)) = t.columns := by
    intro habs
    refine List.filter_eq_self.mpr (fun x hx => ?_)
    simp only [Bool.not_eq_eq_eq_not, Bool.not_true, beq_eq_false_iff_ne]
    exact fun hh => habs (hh ▸ hx)
  refine ⟨?_, ?_, ?_⟩
  · intro hne habs hkeys
    cases t with
    | mk cols rows =>
      cases rows with
      | nil => exact absurd rfl hne
      | cons r rs =>
        simp only [Table.remove_column, delRows]
        rw [if_neg (by simp [hkeys r (List.mem_cons_self _ _)])]
        simp only at hfilter ⊢
        rw [hfilter habs]
  · intro hemp habs
    cases t with
    | mk cols rows =>
      simp only at hemp
      subst hemp
      simp only [Table.remove_column, delRows]
      simp only at hfilter
      rw [hfilter habs]
  · intro hmem hkeys
    simp only [Table.remove_column, delRows_ok hkeys]

theorem claim_C9_witness :
    (⟨["a"], [[("a", Value.int 1)]]⟩ : Table).rows ≠ [] ∧
    ("b" : String) ∉ (⟨["a"], [[("a", Value.int 1)]]⟩ : Table).columns ∧
    Table.remove_column ⟨["a"], [[("a", Value.int 1)]]⟩ "b" =
      (⟨["a"], [[("a", Value.int 1)]]⟩, some PyErr.keyError) :=
  ⟨by decide, by decide,
   (claim_C9_amended ⟨["a"], [[("a", Value.int 1)]]⟩ "b").1 (by decide) (by decide)
     (by decide)⟩

/-- C10: a store returned by filter shares its column-name list as the same
heap object with the source store (same colsref, not merely equal content):
after filtering, set_column with a new name, rename_column, and
calculate_column with a new name applied to the filtered view all mutate the
shared column list, so the source store's column list changes too, while the
source's records outside the view are not updated. -/
theorem claim_C10_shared_columns (s : PyState) (t : RTable) (pred : Record → Bool)
    (hc : t.colsref < s.cols.length) :
    (filterRowsR s t pred).colsref = t.colsref ∧
    (∀ name v, name ∉ s.colsAt t →
      (setColumnR s (filterRowsR s t pred) name (ColValue.scalar v)).1.colsAt t =
        s.colsAt t ++ [name] ∧
      ∀ j ∈ t.rowrefs, j ∉ (filterRowsR s t pred).rowrefs →
        (setColumnR s (filterRowsR s t pred) name (ColValue.scalar v)).1.recAt j =
          s.recAt j) ∧
    (∀ o n, o ∈ s.colsAt t →
      (renameColumnR s (filterRowsR s t pred) o n).1.colsAt t =
        (s.colsAt t).set ((s.colsAt t).indexOf o) n ∧
      ∀ j, j < s.recs.length →
        (renameColumnR s (filterRowsR s t pred) o n).1.recAt j = s.recAt j) ∧
    (∀ name f, name ∉ s.colsAt t →
      (calculateColumnR s (filterRowsR s t pred) name f).colsAt t =
        s.colsAt t ++ [name] ∧
      ∀ j ∈ t.rowrefs, j ∉ (filterRowsR s t pred).rowrefs →
        (calculateColumnR s (filterRowsR s t pred) name f).recAt j = s.recAt j) := by
  have hfc : s.colsAt (filterRowsR s t pred) = s.colsAt t := rfl
  have hfr : (filterRowsR s t pred).colsref = t.colsref := rfl
  refine ⟨rfl, ?_, ?_, ?_⟩
  · intro name v hname
    simp only [setColumnR, hfc, hfr]
    rw [if_neg hname]
    constructor
    · rw [show ∀ st : PyState, st.colsAt t = st.cols.getD t.colsref [] from fun _ => rfl,
        foldl_setRec_cols]
      exact colsAt_set_self s t _ hc
    · intro j _ hj2
      rw [foldl_setRec_recAt _ _ _ _ hj2]
      rfl
  · intro o n ho
    simp only [renameColumnR, hfc, hfr]
    rw [if_pos ho]
    constructor
    · exact colsAt_set_self s t _ hc
    · intro j hj
      simp only [PyState.recAt, List.getD_eq_getElem?_getD]
      rw [List.getElem?_append]
      simp [hj]
  · intro name f hname
    simp only [calculateColumnR, hfc, hfr]
    rw [if_neg hname]
    constructor
    · rw [show ∀ st : PyState, st.colsAt t = st.cols.getD t.colsref [] from fun _ => rfl,
        foldl_setRec_cols]
      exact colsAt_set_self s t _ hc
    · intro j _ hj2
      rw [foldl_setRec_recAt _ _ _ _ hj2]
      rfl

theorem claim_C10_witness :
    (⟨0, [0, 1]⟩ : RTable).colsref <
      (⟨[["a"]], [[("a", Value.int 1)], [("a", Value.int 2)]]⟩ : PyState).cols.length ∧
    ("b" : String) ∉ PyState.colsAt
      ⟨[["a"]], [[("a", Value.int 1)], [("a", Value.int 2)]]⟩ ⟨0, [0, 1]⟩ ∧
    (setColumnR ⟨[["a"]], [[("a", Value.int 1)], [("a", Value.int 2)]]⟩
        (filterRowsR ⟨[["a"]], [[("a", Value.int 1)], [("a", Value.int 2)]]⟩
          ⟨0, [0, 1]⟩ (fun r => pyEq (getV r "a") (Value.int 1)))
        "b" (ColValue.scalar (Value.int 9))).1.colsAt ⟨0, [0, 1]⟩ =
      PyState.colsAt ⟨[["a"]], [[("a", Value.int 1)], [("a", Value.int 2)]]⟩
        ⟨0, [0, 1]⟩ ++ ["b"] :=
  ⟨by decide, by decide,
   ((claim_C10_shared_columns ⟨[["a"]], [[("a", Value.int 1)], [("a", Value.int 2)]]⟩
      ⟨0, [0, 1]⟩ (fun r => pyEq (getV r "a") (Value.int 1)) (by decide)).2.1
      "b" (Value.int 9) (by decide)).1⟩

end PyTable
